import Mathlib

/-!
Verification of the game-tree core of the News → Game Theory agent.

The core under verification is `draw_game_tree` / `add_nodes_edges` from
`app.py` (the rendering traversal that turns a pydantic `GameNode` tree into a
Graphviz digraph description) and the `GameNode.validate_choices` field
validator from `schemas.py`.

Two embeddings of the traversal are given:

* a tree embedding (`GameAgent.add_nodes_edges`, `GameAgent.draw_game_tree`)
  over the inductive `GameNode` type, which models the tree-shaped object
  graphs that pydantic construction produces; Python object identity
  (`str(id(node))`) is modelled by an address assignment `addr : List Nat →
  String` applied to the node's path from the root (distinct live objects in a
  tree-shaped object graph correspond exactly to distinct root paths);

* a reference embedding (`GameAgent.add_nodes_edges_ref`), in which nodes live
  in an explicit store (heap) and `next_node` is a reference, so that cyclic
  object graphs — which the mutable pydantic models permit — are
  representable.  Recursion depth is metered by fuel, modelling the Python
  recursion limit; the store is threaded through the call to make the
  read-only behaviour of the code a provable statement rather than a typing
  accident.
-/

namespace GameAgent

/-! ### Python string semantics: `textwrap.wrap` and `"\n".join`

`wrap_text` in `app.py` is
```
def wrap_text(text, width=20):
    if not text:
        return ""
    return "\n".join(textwrap.wrap(text, width=width))
```
The model below follows CPython's `textwrap.TextWrapper` with its default
options (`replace_whitespace`, `drop_whitespace`, `break_long_words`), as the
source uses it.  Two simplifications, both invisible to every input this
development evaluates the function on: tab expansion is omitted (no input
contains a tab) and the `break_on_hyphens` refinement of chunk splitting is
omitted (no input contains a hyphenated compound word). -/

/-- Whitespace characters that CPython `textwrap` replaces by a space. -/
def pyWS (c : Char) : Bool :=
  c == ' ' || c == '\t' || c == '\n' || c == '\x0b' || c == '\x0c' || c == '\r'

/-- The `replace_whitespace` phase: every whitespace character becomes `' '`. -/
def replaceWhitespace (cs : List Char) : List Char :=
  cs.map (fun c => if pyWS c then ' ' else c)

/-- Split into maximal runs of spaces / non-spaces (the chunking phase of
`textwrap`, sans hyphen splitting).  Fuel is the character count; every step
consumes at least one character, so the fuel never runs out. -/
def splitChunksF : Nat → List Char → List (List Char)
  | 0, _ => []
  | _, [] => []
  | fuel + 1, c :: cs =>
    let run := cs.takeWhile (fun x => (x == ' ') == (c == ' '))
    let rest := cs.dropWhile (fun x => (x == ' ') == (c == ' '))
    (c :: run) :: splitChunksF fuel rest

/-- Chunking phase entry point. -/
def splitChunks (cs : List Char) : List (List Char) :=
  splitChunksF cs.length cs

/-- Models `chunk.strip() == ''` (after whitespace replacement the only
whitespace character left is `' '`). -/
def isSpaceChunk (ch : List Char) : Bool :=
  ch.all (fun c => c == ' ')

/-- The greedy phase of `_wrap_chunks`: take chunks while they fit. -/
def greedyTake (width : Nat) : Nat → List (List Char) → List (List Char) × List (List Char)
  | _, [] => ([], [])
  | curLen, ch :: rest =>
    if curLen + ch.length ≤ width then
      let r := greedyTake width (curLen + ch.length) rest
      (ch :: r.1, r.2)
    else ([], ch :: rest)

/-- Python slice `cs[:n]`, including the negative-index convention. -/
def pySliceTo (n : Int) (cs : List Char) : List Char :=
  if 0 ≤ n then cs.take n.toNat else cs.take (cs.length - (-n).toNat)

/-- Python slice `cs[n:]`, including the negative-index convention. -/
def pySliceFrom (n : Int) (cs : List Char) : List Char :=
  if 0 ≤ n then cs.drop n.toNat else cs.drop (cs.length - (-n).toNat)

/-- The `drop_whitespace` step at the end of a line: CPython drops the single
trailing all-space chunk, if any. -/
def dropLastWS (cur : List (List Char)) : List (List Char) :=
  match cur.getLast? with
  | some lastChunk => if isSpaceChunk lastChunk then cur.dropLast else cur
  | none => cur

/-- The main loop of CPython `TextWrapper._wrap_chunks` (defaults; no
`max_lines`).  One iteration per produced-or-skipped line: optionally drop a
leading all-space chunk (not before the first line), greedily fill, break a
long word if the next chunk exceeds the full width, drop a trailing all-space
chunk, and emit the line if non-empty.  Every iteration consumes a chunk or
shortens one, so fuel `chars + chunks + 1` suffices. -/
def wrapLoop (width : Nat) : Nat → Bool → List (List Char) → List (List Char)
  | 0, _, _ => []
  | fuel + 1, hasLines, chunks =>
    match chunks with
    | [] => []
    | first :: restAll =>
      let chunks1 := if hasLines && isSpaceChunk first then restAll else first :: restAll
      match chunks1 with
      | [] => []
      | _ :: _ =>
        let g := greedyTake width 0 chunks1
        let curLen := (g.1.map List.length).sum
        let curAndRem :=
          match g.2 with
          | ch :: rest2 =>
            if width < ch.length then
              let spaceLeft : Int := if width < 1 then 1 else (width : Int) - (curLen : Int)
              (g.1 ++ [pySliceTo spaceLeft ch], pySliceFrom spaceLeft ch :: rest2)
            else (g.1, g.2)
          | [] => (g.1, g.2)
        let cur := dropLastWS curAndRem.1
        if cur.isEmpty then wrapLoop width fuel hasLines curAndRem.2
        else cur.flatten :: wrapLoop width fuel true curAndRem.2

/-- `textwrap.wrap(text, width)` under the default options. -/
def pyTextwrapWrap (width : Nat) (text : String) : List String :=
  let cs := replaceWhitespace text.data
  let chunks := splitChunks cs
  (wrapLoop width (cs.length + chunks.length + 1) false chunks).map (fun l => String.mk l)

/-- `wrap_text` from `app.py` (lines 54–58).  `if not text` is Python string
truthiness: only the empty string short-circuits. -/
def wrap_text (text : String) (width : Nat) : String :=
  if text = "" then "" else String.intercalate "\n" (pyTextwrapWrap width text)

/-! ### The data model (`schemas.py`) -/

/-- `Payoff` from `schemas.py`: terminal-state record.  Python `float` utility
values are modelled as rationals; the rendering code only ever formats them to
text, and no claim inspects the formatted digits. -/
structure Payoff where
  outcome_summary : String
  utilities : List (String × Rat)
deriving DecidableEq

mutual
/-- `Action` from `schemas.py`: an edge-with-payload leading to `next_node`. -/
inductive Action where
  | mk (name : String) (description : String) (probability : Option Rat) (next_node : GameNode)
/-- `GameNode` from `schemas.py`: the recursive tree node. -/
inductive GameNode where
  | mk (id : String) (current_player_name : Option String) (is_terminal : Bool)
       (actions : Option (List Action)) (payoff : Option Payoff)
end

def Action.name : Action → String
  | .mk n _ _ _ => n

def Action.description : Action → String
  | .mk _ d _ _ => d

def Action.probability : Action → Option Rat
  | .mk _ _ p _ => p

def Action.next_node : Action → GameNode
  | .mk _ _ _ nn => nn

def GameNode.id : GameNode → String
  | .mk i _ _ _ _ => i

def GameNode.current_player_name : GameNode → Option String
  | .mk _ c _ _ _ => c

def GameNode.is_terminal : GameNode → Bool
  | .mk _ _ it _ _ => it

def GameNode.actions : GameNode → Option (List Action)
  | .mk _ _ _ a _ => a

def GameNode.payoff : GameNode → Option Payoff
  | .mk _ _ _ _ p => p

/-- The `validate_choices` field validator of `GameNode` (`schemas.py` lines
46–58).  Its body is: `if not v: return v` (Python truthiness: `None` and the
empty list), then `if len(v) < 2: pass` (the raise is commented out in the
source), then `return v`.  The `Except` codomain records that pydantic would
surface a raised `ValueError` as a construction failure; the function never
uses it. -/
def validate_choices (v : Option (List Action)) : Except String (Option (List Action)) :=
  match v with
  | none => Except.ok none
  | some [] => Except.ok (some [])
  | some l =>
    if l.length < 2 then
      -- the source merely observes the violation: `pass`
      Except.ok (some l)
    else
      Except.ok (some l)

/-- Pydantic construction of a `GameNode` runs the `actions` field validator;
a raise there would reject the construction. -/
def GameNode.construct (i : String) (cpn : Option String) (it : Bool)
    (acts : Option (List Action)) (pay : Option Payoff) : Except String GameNode :=
  (validate_choices acts).map (fun a => GameNode.mk i cpn it a pay)

/-! ### The graph description (`graphviz.Digraph` as used by `app.py`) -/

/-- A `dot.node(...)` statement with the attributes `app.py` passes. -/
structure NodeStmt where
  name : String
  label : String
  shape : String
  style : String
  fillcolor : String
  fontname : String
  fontsize : String
deriving DecidableEq

/-- A `dot.edge(...)` statement with the attributes `app.py` passes. -/
structure EdgeStmt where
  tail_name : String
  head_name : String
  label : String
  fontsize : String
deriving DecidableEq

/-- One body statement of the digraph, in emission order. -/
inductive Stmt where
  | node (s : NodeStmt)
  | edge (e : EdgeStmt)
deriving DecidableEq

/-- The digraph description: graph attributes plus the body statement list. -/
structure Digraph where
  attrs : List (String × String)
  body : List Stmt
deriving DecidableEq

def Digraph.node (d : Digraph) (s : NodeStmt) : Digraph :=
  { d with body := d.body ++ [Stmt.node s] }

def Digraph.edge (d : Digraph) (e : EdgeStmt) : Digraph :=
  { d with body := d.body ++ [Stmt.edge e] }

def Digraph.attr (d : Digraph) (kv : String × String) : Digraph :=
  { d with attrs := d.attrs ++ [kv] }

/-- The node statements of the body, in emission order. -/
def Digraph.nodeStmts (d : Digraph) : List NodeStmt :=
  d.body.filterMap (fun s => match s with | Stmt.node n => some n | Stmt.edge _ => none)

/-- The edge statements of the body, in emission order. -/
def Digraph.edgeStmts (d : Digraph) : List EdgeStmt :=
  d.body.filterMap (fun s => match s with | Stmt.node _ => none | Stmt.edge e => some e)

/-! ### Label and style composition (`app.py` lines 79–108) -/

/-- Python `a or b` on an optional string: `None` and `""` are falsy. -/
def pyOrStr (v : Option String) (dflt : String) : String :=
  match v with
  | some s => if s = "" then dflt else s
  | none => dflt

/-- ASCII lower-casing of one character (Python `str.lower`; every player
name in scope is ASCII, where the two functions agree). -/
def pyCharLower (c : Char) : Char :=
  if 'A' ≤ c ∧ c ≤ 'Z' then Char.ofNat (c.toNat + 32) else c

/-- Python `str.lower` on ASCII strings. -/
def pyLower (s : String) : String :=
  String.mk (s.data.map pyCharLower)

/-- The Nature test of lines 95–96:
`node.current_player_name and node.current_player_name.lower() == 'nature'`
(`None` and `""` are falsy). -/
def isNature (cpn : Option String) : Bool :=
  match cpn with
  | some s => (s != "") && (pyLower s == "nature")
  | none => false

/-- Text of a Python float in an f-string.  The exact digit string is never
inspected by any claim; only that it is an injective function of the value
matters, so the rational is printed as numerator (over denominator when not
integral). -/
def pyFloatRepr (q : Rat) : String :=
  if q.den = 1 then toString q.num else toString q.num ++ "/" ++ toString q.den

/-- The label/shape/style attributes `add_nodes_edges` chooses for a node
(lines 79–97), as a record without the node identifier. -/
structure NodeContent where
  label : String
  shape : String
  style : String
  fillcolor : String
  fontname : String
  fontsize : String
deriving DecidableEq

/-- Lines 79–97 of `app.py`: terminal nodes get the boxed Outcome/Payoffs
label (an absent payoff leaves both sections empty — the two variables are
initialised to `""` and `if node.payoff:` guards the assignment); decision
nodes get the wrapped player name (falling back to `"Unknown"` via Python
`or`) with the `(Moves)` marker, diamond/lightgrey when the player is Nature,
oval/white otherwise. -/
def nodeContentOf (cpn : Option String) (it : Bool) (pay : Option Payoff) : NodeContent :=
  let wrapped_player := wrap_text (pyOrStr cpn "Unknown") 20
  if it then
    let outcome_text := match pay with
      | some p => wrap_text p.outcome_summary 30
      | none => ""
    let payoff_text := match pay with
      | some p => String.intercalate "\n" (p.utilities.map (fun kv => kv.1 ++ ": " ++ pyFloatRepr kv.2))
      | none => ""
    { label := "Outcome:\n" ++ outcome_text ++ "\n\nPayoffs:\n" ++ payoff_text,
      shape := "box", style := "filled", fillcolor := "#f0f2f6",
      fontname := "Arial", fontsize := "10" }
  else
    { label := wrapped_player ++ "\n(Moves)",
      shape := if isNature cpn then "diamond" else "oval",
      style := "filled",
      fillcolor := if isNature cpn then "lightgrey" else "white",
      fontname := "Arial", fontsize := "11" }

/-- The full `dot.node` statement for a node with identifier `node_id`. -/
def nodeStmtCore (node_id : String) (cpn : Option String) (it : Bool) (pay : Option Payoff) :
    NodeStmt :=
  let c := nodeContentOf cpn it pay
  { name := node_id, label := c.label, shape := c.shape, style := c.style,
    fillcolor := c.fillcolor, fontname := c.fontname, fontsize := c.fontsize }

/-- Lines 106–108 of `app.py`: `lbl = action.name`, then
`if action.probability: lbl += f"\n(p={action.probability})"`.
Python float truthiness: `None` and `0.0` are falsy, so a present zero
probability produces no suffix. -/
def actionLabel (nm : String) (pr : Option Rat) : String :=
  nm ++ (match pr with
    | some p => if p = 0 then "" else "\n(p=" ++ pyFloatRepr p ++ ")"
    | none => "")

/-! ### The rendering traversal (`app.py` lines 60–113), tree embedding

`node_id = str(id(node))` is modelled by `addr path`, where `path` is the
node's position (list of action indices) under the root of the render call:
in a tree-shaped object graph the live objects are in bijection with these
paths, so any per-call address assignment is a function of the path.  The
index argument of `add_actions` only feeds this path bookkeeping; the Python
loop carries no index. -/

mutual
/-- The recursive closure `add_nodes_edges` (lines 70–109): emit the node
statement, then the edge from the parent if any, then iterate over
`node.actions` (lines 104–109; `if node.actions:` is list truthiness, and the
loop body of an empty list does nothing, so `none` and `some []` coincide). -/
def add_nodes_edges (addr : List Nat → String) (node : GameNode) (path : List Nat)
    (parent_id : Option String) (edge_label : String) (dot : Digraph) : Digraph :=
  match node with
  | .mk _ cpn it acts pay =>
    let node_id := addr path
    let dot1 := dot.node (nodeStmtCore node_id cpn it pay)
    let dot2 := match parent_id with
      | some pid => dot1.edge ⟨pid, node_id, wrap_text edge_label 15, "9"⟩
      | none => dot1
    match acts with
    | some l => add_actions addr l 0 path node_id dot2
    | none => dot2
/-- The `for action in node.actions:` loop of lines 104–109. -/
def add_actions (addr : List Nat → String) (l : List Action) (i : Nat) (path : List Nat)
    (node_id : String) (dot : Digraph) : Digraph :=
  match l with
  | [] => dot
  | (Action.mk nm _ pr nn) :: rest =>
    add_actions addr rest (i + 1) path node_id
      (add_nodes_edges addr nn (path ++ [i]) (some node_id) (actionLabel nm pr) dot)
end

/-- `draw_game_tree` (lines 60–113).  The root parameter is optional because
the call site guards with `if root_node:` — an absent root skips the
traversal and the attribute-only digraph is returned. -/
def draw_game_tree (addr : List Nat → String) (root_node : Option GameNode) : Digraph :=
  let dot : Digraph := ⟨[], []⟩
  let dot := ((dot.attr ("rankdir", "TB")).attr ("splines", "ortho")).attr ("nodesep", "0.5")
  let dot := dot.attr ("ranksep", "1.0")
  match root_node with
  | some root => add_nodes_edges addr root [] none "" dot
  | none => dot

/-- The subtree of `t` at a path of action indices; `none` when the path does
not denote a node. -/
def subtreeAt : GameNode → List Nat → Option GameNode
  | t, [] => some t
  | t, i :: p =>
    match t.actions with
    | some l =>
      match l[i]? with
      | some a => subtreeAt a.next_node p
      | none => none
    | none => none

/-! ### The rendering traversal, reference embedding

Pydantic models are ordinary mutable Python objects, so an object graph in
which `next_node` refers back to an ancestor is constructible by assignment.
To talk about such graphs the nodes live in an explicit store and `next_node`
is a reference (an index).  Fuel bounds the recursion depth, as the Python
interpreter's recursion limit does; the identifier `str(id(node))` is the
reference itself, printed.  The store is threaded through every call: the
embedding could express mutation of the tree, and the code performs none. -/

/-- `Action` with `next_node` as a store reference. -/
structure ActionR where
  name : String
  description : String
  probability : Option Rat
  next_node : Nat
deriving DecidableEq

/-- `GameNode` with actions referring to child nodes through the store. -/
structure GameNodeR where
  id : String
  current_player_name : Option String
  is_terminal : Bool
  actions : Option (List ActionR)
  payoff : Option Payoff
deriving DecidableEq

/-- The heap of node objects; a reference is an index into it. -/
abbrev Store := List GameNodeR

deriving instance DecidableEq for Except

/-- Abnormal outcomes of a render call in the reference embedding.
`recursionExhausted` is the Python `RecursionError` (fuel ran out);
`missingObject` is a dangling reference, unreachable for stores describing
live Python objects.  `MalformedReference` is the error the specification's
taxonomy demands for cyclic input; the constructor exists so that the
specified behaviour is statable — no code path produces it. -/
inductive RenderErr where
  | recursionExhausted
  | missingObject
  | MalformedReference
deriving DecidableEq

/-- `add_nodes_edges` over the store.  The body is the same translation of
`app.py` lines 70–109 as the tree embedding, except that the child of an
action is fetched from the store and the store is threaded. -/
def add_nodes_edges_ref (fuel : Nat) (ref : Nat) (parent_id : Option String)
    (edge_label : String) (st : Store) (dot : Digraph) :
    Except RenderErr (Store × Digraph) :=
  match fuel with
  | 0 => Except.error RenderErr.recursionExhausted
  | fuel + 1 =>
    match st[ref]? with
    | none => Except.error RenderErr.missingObject
    | some node =>
      let node_id := toString ref
      let dot1 := dot.node (nodeStmtCore node_id node.current_player_name node.is_terminal node.payoff)
      let dot2 := match parent_id with
        | some pid => dot1.edge ⟨pid, node_id, wrap_text edge_label 15, "9"⟩
        | none => dot1
      match node.actions with
      | some l =>
        l.foldl
          (fun acc a => acc.bind (fun sd =>
            add_nodes_edges_ref fuel a.next_node (some node_id)
              (actionLabel a.name a.probability) sd.1 sd.2))
          (Except.ok (st, dot2))
      | none => Except.ok (st, dot2)

/-- `draw_game_tree` over the store. -/
def draw_game_tree_ref (fuel : Nat) (root_ref : Option Nat) (st : Store) :
    Except RenderErr (Store × Digraph) :=
  let dot : Digraph := ⟨[], []⟩
  let dot := ((dot.attr ("rankdir", "TB")).attr ("splines", "ortho")).attr ("nodesep", "0.5")
  let dot := dot.attr ("ranksep", "1.0")
  match root_ref with
  | some r => add_nodes_edges_ref fuel r none "" st dot
  | none => Except.ok (st, dot)

/-- The one-node cyclic store: the root's single action's `next_node` refers
back to the root itself (the cycle-safety scenario of the specification). -/
def cycStore : Store :=
  [{ id := "root", current_player_name := some "Player", is_terminal := false,
     actions := some [{ name := "loop", description := "", probability := none, next_node := 0 }],
     payoff := none }]

/-! ### Skeleton of a render: the body with identifiers as paths

`add_nodes_edges` only ever uses the address assignment to mint identifier
strings; `bodyP` is the same emission sequence with the raw paths in place of
identifiers, and `applyAddr` reinstates them.  The characterization theorem
below equates the two, and all structural claims are proved on the
skeleton. -/

/-- A body statement with path-valued identifiers. -/
inductive StmtP where
  | node (path : List Nat) (content : NodeContent)
  | edge (tail head : List Nat) (label : String)
deriving DecidableEq

/-- Reinstate string identifiers in a skeleton statement. -/
def applyAddr (addr : List Nat → String) : StmtP → Stmt
  | .node p c =>
    Stmt.node { name := addr p, label := c.label, shape := c.shape, style := c.style,
                fillcolor := c.fillcolor, fontname := c.fontname, fontsize := c.fontsize }
  | .edge t h lbl => Stmt.edge ⟨addr t, addr h, lbl, "9"⟩

mutual
/-- Skeleton of the body `add_nodes_edges` appends for the subtree `node`
sitting at `path`, with `parent` the path of the parent node (if any). -/
def bodyP (node : GameNode) (path : List Nat) (parent : Option (List Nat))
    (edge_label : String) : List StmtP :=
  match node with
  | .mk _ cpn it acts pay =>
    (StmtP.node path (nodeContentOf cpn it pay) ::
      (match parent with
       | some pp => [StmtP.edge pp path (wrap_text edge_label 15)]
       | none => [])) ++
    (match acts with
     | some l => actsP l 0 path
     | none => [])
/-- Skeleton of the body `add_actions` appends for the action list `l` of the
node at `path`, starting at child index `i`. -/
def actsP (l : List Action) (i : Nat) (path : List Nat) : List StmtP :=
  match l with
  | [] => []
  | (Action.mk nm _ pr nn) :: rest =>
    bodyP nn (path ++ [i]) (some path) (actionLabel nm pr) ++ actsP rest (i + 1) path
end

/-- Node paths occurring in a skeleton, in emission order. -/
def nodePathsP (sp : List StmtP) : List (List Nat) :=
  sp.filterMap (fun s => match s with | StmtP.node p _ => some p | StmtP.edge _ _ _ => none)

/-- Left-to-right closure check on a skeleton: every edge statement only
references node paths already declared (or in `seen`). -/
def pathsClosedFrom (seen : List (List Nat)) : List StmtP → Bool
  | [] => true
  | StmtP.node p _ :: rest => pathsClosedFrom (p :: seen) rest
  | StmtP.edge t h _ :: rest =>
    (decide (t ∈ seen) && decide (h ∈ seen)) && pathsClosedFrom seen rest

/-- Left-to-right closure check on a digraph body: every edge statement only
references node identifiers already declared by an earlier node statement (or
in `seen`).  This is the "node emitted before any edge touching it"
invariant. -/
def edgesClosedFrom (seen : List String) : List Stmt → Bool
  | [] => true
  | Stmt.node n :: rest => edgesClosedFrom (n.name :: seen) rest
  | Stmt.edge e :: rest =>
    (decide (e.tail_name ∈ seen) && decide (e.head_name ∈ seen)) && edgesClosedFrom seen rest

/-- Identifiers of the node statements of a body, in emission order. -/
def nodeNames (body : List Stmt) : List String :=
  body.filterMap (fun s => match s with | Stmt.node n => some n.name | Stmt.edge _ => none)

/-- Rewrite one statement's identifiers to positions in the node list. -/
def canonicalST (ids : List String) : Stmt → Stmt
  | .node n => Stmt.node { n with name := toString (ids.indexOf n.name) }
  | .edge e => Stmt.edge { e with tail_name := toString (ids.indexOf e.tail_name),
                                  head_name := toString (ids.indexOf e.head_name) }

/-- Canonical form of a digraph: every identifier replaced by the position of
its first occurrence among the node statements.  Two digraphs that differ
only by an injective renaming of identifiers have the same canonical form, so
equality of canonical forms is identifier-independence of the relational
structure together with equality of all label/shape/style content. -/
def canonicalize (d : Digraph) : Digraph :=
  { attrs := d.attrs, body := d.body.map (canonicalST (nodeNames d.body)) }

/-- Node content of a tree node (the attributes its statement carries). -/
def contentOfN (s : GameNode) : NodeContent :=
  nodeContentOf s.current_player_name s.is_terminal s.payoff

/-- Address-free canonicalization of a skeleton statement: identifiers become
positions in the given node-path list. -/
def canonicalSTP (paths : List (List Nat)) : StmtP → Stmt
  | .node p c =>
    Stmt.node { name := toString (paths.indexOf p), label := c.label, shape := c.shape,
                style := c.style, fillcolor := c.fillcolor, fontname := c.fontname,
                fontsize := c.fontsize }
  | .edge t h lbl => Stmt.edge ⟨toString (paths.indexOf t), toString (paths.indexOf h), lbl, "9"⟩

/-- Node paths accumulated while scanning a skeleton left to right. -/
def collectP (seen : List (List Nat)) : List StmtP → List (List Nat)
  | [] => seen
  | StmtP.node p _ :: rest => collectP (p :: seen) rest
  | StmtP.edge _ _ _ :: rest => collectP seen rest

/-- The skeleton edge `(tl, hd, lbl)` is one the traversal of `node` (sitting
at `path`) emits for an action: some descendant `s` of `node` has an action
list containing action `a` at position `j`, the edge runs from `s` to that
child, and the label is the wrapped action label. -/
def EdgeAt (node : GameNode) (path : List Nat) (tl hd : List Nat) (lbl : String) : Prop :=
  ∃ p s ls j a, subtreeAt node p = some s ∧ s.actions = some ls ∧ ls[j]? = some a ∧
    tl = path ++ p ∧ hd = (path ++ p) ++ [j] ∧
    lbl = wrap_text (actionLabel a.name a.probability) 15

/-- The edge statements of a skeleton whose tail is the given path, in
emission order, projected to (head path, label). -/
def keyEdgesP (key : List Nat) (sp : List StmtP) : List (List Nat × String) :=
  sp.filterMap (fun st => match st with
    | StmtP.edge tl hd lbl => if tl = key then some (hd, lbl) else none
    | StmtP.node _ _ => none)

/-- The edge statements of a digraph body whose tail is the given
identifier, in emission order, projected to (head identifier, label). -/
def keyEdges (key : String) (body : List Stmt) : List (String × String) :=
  body.filterMap (fun st => match st with
    | Stmt.edge e => if e.tail_name = key then some (e.head_name, e.label) else none
    | Stmt.node _ => none)

/-- One entry per action of a node, in the action sequence's given order: the
child's path (the node's path extended with the action's position) paired
with the wrapped action label. -/
def childEdgeSpecs (path : List Nat) : List Action → Nat → List (List Nat × String)
  | [], _ => []
  | (Action.mk nm _ pr _) :: rest, i =>
    (path ++ [i], wrap_text (actionLabel nm pr) 15) :: childEdgeSpecs path rest (i + 1)

/-- The graph attributes `draw_game_tree` always sets (lines 65–68). -/
def drawAttrs : List (String × String) :=
  [("rankdir", "TB"), ("splines", "ortho"), ("nodesep", "0.5"), ("ranksep", "1.0")]

/-! ### Concrete inputs used by the claims -/

/-- A concrete injective address assignment standing in for `str(id(·))`. -/
def pathStr (p : List Nat) : String :=
  String.intercalate "_" (p.map toString)

/-- A second, different address assignment for the two-call comparison. -/
def pathStr2 (p : List Nat) : String :=
  "x" ++ String.intercalate "_" (p.map toString)

/-- Terminal payoff node `{A: 10, B: -5}` of the specification's 1-level
example. -/
def raiseLeaf : GameNode :=
  .mk "t1" none true none (some ⟨"A raises, B keeps prices", [("A", 10), ("B", -5)]⟩)

/-- Terminal payoff node `{A: -5, B: 10}` of the specification's 1-level
example. -/
def lowerLeaf : GameNode :=
  .mk "t2" none true none (some ⟨"A lowers, B keeps prices", [("A", -5), ("B", 10)]⟩)

/-- The specification's 1-level example tree: root player "Company A" with
actions "Raise Price" and "Lower Price". -/
def companyTree : GameNode :=
  .mk "r" (some "Company A") false
    (some [.mk "Raise Price" "raise" none raiseLeaf,
           .mk "Lower Price" "lower" none lowerLeaf]) none

/-- A malformed node carrying a present probability of value `0.0` on its
single action. -/
def zeroProbTree : GameNode :=
  .mk "r" (some "Nature") false
    (some [.mk "A" "" (some 0) (.mk "t" none true none none)]) none

/-- A malformed node flagged terminal that nevertheless carries an action. -/
def terminalWithActionTree : GameNode :=
  .mk "r" (some "P") true
    (some [.mk "go" "" none (.mk "t" none true none none)])
    (some ⟨"done", [("P", 1)]⟩)

/-- An internal node with no player name and no actions. -/
def unknownChildless : GameNode :=
  .mk "u" none false none none

/-- A terminal node with no payoff. -/
def terminalNoPayoff : GameNode :=
  .mk "v" none true none none

/-! ### Characterization: the traversal appends exactly the skeleton -/

/-- The body `add_nodes_edges` produces is the input body followed by the
skeleton of the rendered subtree, with identifiers minted by `addr`; the
attributes are untouched.  (The parent identifier of every real call is the
address of a parent path, or absent.) -/
theorem add_nodes_edges_eq_bodyP (addr : List Nat → String) :
    ∀ (node : GameNode) (path : List Nat) (parent_id : Option String) (el : String)
      (dot : Digraph) (parentP : Option (List Nat)), parent_id = Option.map addr parentP →
      add_nodes_edges addr node path parent_id el dot =
        { dot with body := dot.body ++ (bodyP node path parentP el).map (applyAddr addr) } := by
  intro node path parent_id el dot
  refine add_nodes_edges.induct addr
    (fun node path parent_id el dot =>
      ∀ parentP, parent_id = Option.map addr parentP →
        add_nodes_edges addr node path parent_id el dot =
          { dot with body := dot.body ++ (bodyP node path parentP el).map (applyAddr addr) })
    (fun l i path node_id dot =>
      node_id = addr path →
        add_actions addr l i path node_id dot =
          { dot with body := dot.body ++ (actsP l i path).map (applyAddr addr) })
    ?_ ?_ ?_ ?_ node path parent_id el dot
  · intro path parent_id el dot i cpn it pay nid dot1 dot2 l IH parentP hp
    have hIH := IH rfl
    subst hp
    cases parentP with
    | none =>
      simp only [nid, dot1, dot2] at hIH
      simp only [Option.map_none', Digraph.node, Digraph.edge, nodeStmtCore] at hIH
      simp only [add_nodes_edges, bodyP, Option.map_none', Digraph.node,
        Digraph.edge, applyAddr, nodeStmtCore, List.map_append, List.map_cons,
        List.map_nil, List.append_assoc, List.cons_append, List.nil_append, hIH]
    | some pp =>
      simp only [nid, dot1, dot2] at hIH
      simp only [Option.map_some', Digraph.node, Digraph.edge, nodeStmtCore,
        List.append_assoc, List.cons_append, List.nil_append,
        List.singleton_append] at hIH
      simp only [add_nodes_edges, bodyP, Option.map_some', Digraph.node,
        Digraph.edge, applyAddr, nodeStmtCore, List.map_append, List.map_cons,
        List.map_nil, List.append_assoc, List.cons_append, List.nil_append,
        List.singleton_append, hIH]
  · intro path parent_id el dot i cpn it pay parentP hp
    subst hp
    cases parentP with
    | none =>
      simp only [add_nodes_edges, bodyP, Option.map_none', Digraph.node, Digraph.edge,
        applyAddr, nodeStmtCore, List.map_append, List.map_cons, List.map_nil,
        List.append_assoc, List.cons_append, List.nil_append, List.append_nil]
    | some pp =>
      simp only [add_nodes_edges, bodyP, Option.map_some', Digraph.node, Digraph.edge,
        applyAddr, nodeStmtCore, List.map_append, List.map_cons, List.map_nil,
        List.append_assoc, List.cons_append, List.nil_append, List.append_nil]
  · intro i path node_id dot _
    simp [add_actions, actsP]
  · intro i path node_id dot nm ds pr nn rest IH1 IH2 hp
    have h1 := IH1 (some path) (by simp [hp])
    have h2 := IH2 hp
    simp only [add_actions, actsP, h1] at h2 ⊢
    simp only [h2, List.map_append, List.append_assoc]

/-- `draw_game_tree` on a present root: the fixed graph attributes plus
exactly the skeleton body. -/
theorem draw_game_tree_char (addr : List Nat → String) (t : GameNode) :
    draw_game_tree addr (some t) =
      { attrs := drawAttrs, body := (bodyP t [] none "").map (applyAddr addr) } := by
  have h := add_nodes_edges_eq_bodyP addr t [] none "" ⟨drawAttrs, []⟩ none rfl
  simp only [List.nil_append] at h
  simpa only [draw_game_tree, Digraph.attr, drawAttrs, List.nil_append,
    List.cons_append, List.append_nil] using h

/-- Any statement of a child's rendering occurs among the statements of the
action-list rendering, when the child is the action at position `j`. -/
theorem actsP_mem_of_child (x : StmtP) :
    ∀ (l : List Action) (i : Nat) (path : List Nat) (j : Nat) (a : Action),
      l[j]? = some a →
      x ∈ bodyP a.next_node (path ++ [i + j]) (some path)
          (actionLabel a.name a.probability) →
      x ∈ actsP l i path := by
  intro l
  induction l with
  | nil => intro i path j a h; simp at h
  | cons hd tl IH =>
    intro i path j a hj hx
    cases hd with
    | mk nm ds pr nn =>
      cases j with
      | zero =>
        rw [List.getElem?_cons_zero, Option.some_inj] at hj
        subst hj
        simp only [actsP, List.mem_append]
        exact Or.inl (by simpa [Action.next_node, Action.name, Action.probability] using hx)
      | succ j2 =>
        rw [List.getElem?_cons_succ] at hj
        have hx2 : x ∈ bodyP a.next_node (path ++ [(i + 1) + j2]) (some path)
            (actionLabel a.name a.probability) := by
          have : i + (j2 + 1) = (i + 1) + j2 := by omega
          rw [this] at hx
          exact hx
        simp only [actsP, List.mem_append]
        exact Or.inr (IH (i + 1) path j2 a hj hx2)

/-- Every subtree reachable at path `p` contributes its node statement, keyed
by the concatenated path. -/
theorem bodyP_node_mem :
    ∀ (p : List Nat) (node : GameNode) (path : List Nat) (parentP : Option (List Nat))
      (el : String) (s : GameNode), subtreeAt node p = some s →
      StmtP.node (path ++ p) (contentOfN s) ∈ bodyP node path parentP el := by
  intro p
  induction p with
  | nil =>
    intro node path parentP el s hs
    cases node with
    | mk i cpn it acts pay =>
      rw [subtreeAt, Option.some_inj] at hs
      subst hs
      rw [bodyP.eq_def]
      simp [contentOfN, GameNode.current_player_name, GameNode.is_terminal,
        GameNode.payoff]
  | cons j p2 IH =>
    intro node path parentP el s hs
    cases node with
    | mk i cpn it acts pay =>
      rw [subtreeAt] at hs
      simp only [GameNode.actions] at hs
      cases acts with
      | none => simp at hs
      | some l =>
        simp only at hs
        cases hl : l[j]? with
        | none => rw [hl] at hs; simp at hs
        | some a =>
          rw [hl] at hs
          simp only at hs
          have hmem := IH a.next_node (path ++ [j]) (some path)
            (actionLabel a.name a.probability) s hs
          have hmem2 : StmtP.node (path ++ (j :: p2)) (contentOfN s) ∈
              bodyP a.next_node (path ++ [0 + j]) (some path)
                (actionLabel a.name a.probability) := by
            have h1 : (0 : Nat) + j = j := by omega
            have h2 : path ++ (j :: p2) = (path ++ [j]) ++ p2 := by simp
            rw [h1, h2]
            exact hmem
          have := actsP_mem_of_child _ l 0 path j a hl hmem2
          simp only [bodyP, List.mem_append]
          exact Or.inr this

/-- Where the edge statements of a skeleton come from: either the single edge
linking the rendered subtree to its parent, or an action edge of some
descendant.  (The induction principle of the traversal is reused; the unused
`Digraph`/identifier arguments are instantiated arbitrarily.) -/
theorem bodyP_edge_char :
    ∀ (node : GameNode) (path : List Nat) (parentP : Option (List Nat)) (el : String)
      (tl hd : List Nat) (lbl : String),
      StmtP.edge tl hd lbl ∈ bodyP node path parentP el →
      (∃ pp, parentP = some pp ∧ tl = pp ∧ hd = path ∧ lbl = wrap_text el 15) ∨
      EdgeAt node path tl hd lbl := by
  have main := add_nodes_edges.induct (fun _ => "")
    (fun node path _ el _ =>
      ∀ parentP tl hd lbl, StmtP.edge tl hd lbl ∈ bodyP node path parentP el →
        (∃ pp, parentP = some pp ∧ tl = pp ∧ hd = path ∧ lbl = wrap_text el 15) ∨
        EdgeAt node path tl hd lbl)
    (fun l i path _ _ =>
      ∀ tl hd lbl, StmtP.edge tl hd lbl ∈ actsP l i path →
        ∃ j a, l[j]? = some a ∧
          ((tl = path ∧ hd = path ++ [i + j] ∧
              lbl = wrap_text (actionLabel a.name a.probability) 15) ∨
            EdgeAt a.next_node (path ++ [i + j]) tl hd lbl))
    ?_ ?_ ?_ ?_
  · intro node path parentP el tl hd lbl hmem
    exact main node path none el ⟨[], []⟩ parentP tl hd lbl hmem
  · intro path parent_id el dot i cpn it pay nid dot1 dot2 l IH parentP tl hd lbl hmem
    rw [bodyP.eq_def] at hmem
    simp only [List.cons_append, List.mem_cons, List.mem_append] at hmem
    rcases hmem with h1 | h2 | h3
    · exact absurd h1 (by simp)
    · cases parentP with
      | none => simp at h2
      | some pp =>
        simp only [List.mem_singleton] at h2
        rw [StmtP.edge.injEq] at h2
        exact Or.inl ⟨pp, rfl, h2.1, h2.2.1, h2.2.2⟩
    · rcases IH tl hd lbl h3 with ⟨j, a, hj, hcase⟩
      rcases hcase with ⟨htl, hhd, hlbl⟩ | hdeep
      · refine Or.inr ⟨[], GameNode.mk i cpn it (some l) pay, l, j, a, ?_, ?_, hj, ?_, ?_, hlbl⟩
        · rw [subtreeAt]
        · rfl
        · simpa using htl
        · simpa using hhd
      · rcases hdeep with ⟨p, s, ls, j2, a2, hsub, hacts, hj2, htl, hhd, hlbl⟩
        refine Or.inr ⟨j :: p, s, ls, j2, a2, ?_, hacts, hj2, ?_, ?_, hlbl⟩
        · rw [subtreeAt]
          simp only [GameNode.actions]
          rw [hj]
          exact hsub
        · rw [htl]; simp
        · rw [hhd]; simp
  · intro path parent_id el dot i cpn it pay parentP tl hd lbl hmem
    rw [bodyP.eq_def] at hmem
    simp only [List.append_nil, List.mem_cons] at hmem
    rcases hmem with h1 | h2
    · exact absurd h1 (by simp)
    · cases parentP with
      | none => simp at h2
      | some pp =>
        simp only [List.mem_singleton] at h2
        rw [StmtP.edge.injEq] at h2
        exact Or.inl ⟨pp, rfl, h2.1, h2.2.1, h2.2.2⟩
  · intro i path node_id dot tl hd lbl hmem
    rw [actsP.eq_def] at hmem
    simp at hmem
  · intro i path node_id dot nm ds pr nn rest IH1 IH2 tl hd lbl hmem
    rw [actsP.eq_def] at hmem
    simp only [List.mem_append] at hmem
    rcases hmem with h1 | h2
    · rcases IH1 (some path) tl hd lbl h1 with ⟨pp, hpp, htl, hhd, hlbl⟩ | hdeep
      · refine ⟨0, Action.mk nm ds pr nn, by simp, Or.inl ?_⟩
        rw [Option.some_inj] at hpp
        subst hpp
        refine ⟨htl, by simpa using hhd, ?_⟩
        simpa [Action.name, Action.probability] using hlbl
      · refine ⟨0, Action.mk nm ds pr nn, by simp, Or.inr ?_⟩
        simpa [Action.next_node] using hdeep
    · rcases IH2 tl hd lbl h2 with ⟨j, a, hj, hcase⟩
      refine ⟨j + 1, a, by simpa using hj, ?_⟩
      rw [show i + (j + 1) = (i + 1) + j from by omega]
      exact hcase

/-- Membership in `nodeStmts` through the skeleton map. -/
theorem nodeStmts_of_bodyP (addr : List Nat → String) (sp : List StmtP) (ns : NodeStmt) :
    ns ∈ (Digraph.nodeStmts ⟨drawAttrs, sp.map (applyAddr addr)⟩) ↔
      ∃ p c, StmtP.node p c ∈ sp ∧
        ns = { name := addr p, label := c.label, shape := c.shape, style := c.style,
               fillcolor := c.fillcolor, fontname := c.fontname, fontsize := c.fontsize } := by
  simp only [Digraph.nodeStmts, List.filterMap_map, List.mem_filterMap, Function.comp]
  constructor
  · rintro ⟨st, hst, hmap⟩
    cases st with
    | node p c =>
      refine ⟨p, c, hst, ?_⟩
      simp only [applyAddr] at hmap
      rw [Option.some_inj] at hmap
      exact hmap.symm
    | edge t h lbl => simp [applyAddr] at hmap
  · rintro ⟨p, c, hmem, hns⟩
    exact ⟨StmtP.node p c, hmem, by simp [applyAddr, hns]⟩

/-- Membership in `edgeStmts` through the skeleton map. -/
theorem edgeStmts_of_bodyP (addr : List Nat → String) (sp : List StmtP) (e : EdgeStmt) :
    e ∈ (Digraph.edgeStmts ⟨drawAttrs, sp.map (applyAddr addr)⟩) ↔
      ∃ tl hd lbl, StmtP.edge tl hd lbl ∈ sp ∧ e = ⟨addr tl, addr hd, lbl, "9"⟩ := by
  simp only [Digraph.edgeStmts, List.filterMap_map, List.mem_filterMap, Function.comp]
  constructor
  · rintro ⟨st, hst, hmap⟩
    cases st with
    | node p c => simp [applyAddr] at hmap
    | edge t h lbl =>
      refine ⟨t, h, lbl, hst, ?_⟩
      simp only [applyAddr] at hmap
      rw [Option.some_inj] at hmap
      exact hmap.symm
  · rintro ⟨tl, hd, lbl, hmem, he⟩
    exact ⟨StmtP.edge tl hd lbl, hmem, by simp [applyAddr, he]⟩

/-- Every edge statement `draw_game_tree` emits comes from an action of a
rendered node: its tail is the identifier of a node whose (truthy) action
list contains the action `a` at position `j`, its head is that child's
identifier, and its label is the wrapped action label. -/
theorem draw_edge_char (addr : List Nat → String) (t : GameNode) (e : EdgeStmt)
    (he : e ∈ (draw_game_tree addr (some t)).edgeStmts) :
    ∃ p s ls j a, subtreeAt t p = some s ∧ s.actions = some ls ∧ ls[j]? = some a ∧
      e.tail_name = addr p ∧ e.head_name = addr (p ++ [j]) ∧
      e.label = wrap_text (actionLabel a.name a.probability) 15 := by
  rw [draw_game_tree_char] at he
  rcases (edgeStmts_of_bodyP addr _ e).1 he with ⟨tl, hd, lbl, hmem, hedge⟩
  rcases bodyP_edge_char t [] none "" tl hd lbl hmem with ⟨pp, hpp, _⟩ | hdeep
  · exact absurd hpp (by simp)
  · rcases hdeep with ⟨p, s, ls, j, a, hsub, hacts, hj, htl, hhd, hlbl⟩
    refine ⟨p, s, ls, j, a, hsub, hacts, hj, ?_, ?_, ?_⟩
    · rw [hedge]; simp only [htl]; simp
    · rw [hedge]; simp only [hhd]; simp
    · rw [hedge]; exact hlbl

/-- Splitting the closure scan across an append. -/
theorem pathsClosedFrom_append (A : List StmtP) :
    ∀ (seen : List (List Nat)) (B : List StmtP),
      pathsClosedFrom seen (A ++ B) =
        (pathsClosedFrom seen A && pathsClosedFrom (collectP seen A) B) := by
  induction A with
  | nil => intro seen B; simp [pathsClosedFrom, collectP]
  | cons st rest IH =>
    intro seen B
    cases st with
    | node p c =>
      simp only [List.cons_append, pathsClosedFrom, collectP, List.append_eq]
      exact IH (p :: seen) B
    | edge t h lbl =>
      simp only [List.cons_append, pathsClosedFrom, collectP, List.append_eq,
        Bool.and_assoc]
      rw [IH seen B]

/-- `collectP` only grows the seen set. -/
theorem mem_collectP (sp : List StmtP) :
    ∀ (seen : List (List Nat)) (x : List Nat), x ∈ seen → x ∈ collectP seen sp := by
  induction sp with
  | nil => intro seen x hx; simpa [collectP] using hx
  | cons st rest IH =>
    intro seen x hx
    cases st with
    | node p c => exact IH (p :: seen) x (List.mem_cons_of_mem _ hx)
    | edge t h lbl => exact IH seen x hx

/-- The closure scan is monotone in the seen set. -/
theorem pathsClosedFrom_mono (sp : List StmtP) :
    ∀ (seen seen2 : List (List Nat)), (∀ x ∈ seen, x ∈ seen2) →
      pathsClosedFrom seen sp = true → pathsClosedFrom seen2 sp = true := by
  induction sp with
  | nil => intro seen seen2 _ _; rfl
  | cons st rest IH =>
    intro seen seen2 hsub h
    cases st with
    | node p c =>
      rw [pathsClosedFrom] at h ⊢
      refine IH (p :: seen) (p :: seen2) ?_ h
      intro x hx
      rcases List.mem_cons.1 hx with h1 | h2
      · exact List.mem_cons.2 (Or.inl h1)
      · exact List.mem_cons.2 (Or.inr (hsub x h2))
    | edge t h2 lbl =>
      rw [pathsClosedFrom] at h ⊢
      simp only [Bool.and_eq_true, decide_eq_true_iff] at h ⊢
      exact ⟨⟨hsub t h.1.1, hsub h2 h.1.2⟩, IH seen seen2 hsub h.2⟩

/-- The skeleton of a rendered subtree is closed: every edge references only
node paths already emitted (the parent path must be in the ambient seen
set). -/
theorem bodyP_closed :
    ∀ (node : GameNode) (path : List Nat) (parentP : Option (List Nat)) (el : String)
      (seen : List (List Nat)), (∀ pp, parentP = some pp → pp ∈ seen) →
      pathsClosedFrom seen (bodyP node path parentP el) = true := by
  have main := add_nodes_edges.induct (fun _ => "")
    (fun node path _ el _ =>
      ∀ parentP seen, (∀ pp, parentP = some pp → pp ∈ seen) →
        pathsClosedFrom seen (bodyP node path parentP el) = true)
    (fun l i path _ _ =>
      ∀ seen, path ∈ seen → pathsClosedFrom seen (actsP l i path) = true)
    ?_ ?_ ?_ ?_
  · intro node path parentP el seen hpar
    exact main node path none el ⟨[], []⟩ parentP seen hpar
  · intro path parent_id el dot i cpn it pay nid dot1 dot2 l IH parentP seen hpar
    cases parentP with
    | none =>
      show pathsClosedFrom seen
        (StmtP.node path (nodeContentOf cpn it pay) :: actsP l 0 path) = true
      rw [pathsClosedFrom]
      exact IH (path :: seen) (List.mem_cons_self _ _)
    | some pp =>
      show pathsClosedFrom seen
        (StmtP.node path (nodeContentOf cpn it pay) ::
          StmtP.edge pp path (wrap_text el 15) :: actsP l 0 path) = true
      rw [pathsClosedFrom, pathsClosedFrom]
      have hpp := hpar pp rfl
      have hIH := IH (path :: seen) (List.mem_cons_self _ _)
      simp [List.mem_cons, hpp, hIH]
  · intro path parent_id el dot i cpn it pay parentP seen hpar
    cases parentP with
    | none =>
      show pathsClosedFrom seen
        [StmtP.node path (nodeContentOf cpn it pay)] = true
      rfl
    | some pp =>
      show pathsClosedFrom seen
        [StmtP.node path (nodeContentOf cpn it pay),
         StmtP.edge pp path (wrap_text el 15)] = true
      rw [pathsClosedFrom, pathsClosedFrom]
      have hpp := hpar pp rfl
      simp [List.mem_cons, hpp, pathsClosedFrom]
  · intro i path node_id dot seen hpath
    rfl
  · intro i path node_id dot nm ds pr nn rest IH1 IH2 seen hpath
    show pathsClosedFrom seen
      (bodyP nn (path ++ [i]) (some path) (actionLabel nm pr) ++
        actsP rest (i + 1) path) = true
    rw [pathsClosedFrom_append]
    have h1 := IH1 (some path) seen
      (by intro pp hpp; rw [Option.some_inj] at hpp; rw [← hpp]; exact hpath)
    have h2 := IH2 (collectP seen (bodyP nn (path ++ [i]) (some path) (actionLabel nm pr)))
      (mem_collectP _ _ _ hpath)
    simp [h1, h2]

/-- Transfer of the closure scan to the string-identifier body. -/
theorem edgesClosedFrom_map (addr : List Nat → String) (sp : List StmtP) :
    ∀ (seen : List (List Nat)), pathsClosedFrom seen sp = true →
      edgesClosedFrom (seen.map addr) (sp.map (applyAddr addr)) = true := by
  induction sp with
  | nil => intro seen _; rfl
  | cons st rest IH =>
    intro seen h
    cases st with
    | node p c =>
      rw [pathsClosedFrom] at h
      simp only [List.map_cons, applyAddr, edgesClosedFrom]
      exact IH (p :: seen) h
    | edge t h2 lbl =>
      rw [pathsClosedFrom] at h
      simp only [Bool.and_eq_true, decide_eq_true_iff] at h
      simp only [List.map_cons, applyAddr, edgesClosedFrom, Bool.and_eq_true,
        decide_eq_true_iff]
      exact ⟨⟨List.mem_map_of_mem addr h.1.1, List.mem_map_of_mem addr h.1.2⟩,
        IH seen h.2⟩

/-- First-occurrence indices are preserved by an injective-on-the-list map. -/
theorem indexOf_map_nodup {α β : Type} [BEq α] [LawfulBEq α] [BEq β] [LawfulBEq β]
    (f : α → β) :
    ∀ (l : List α) (x : α), x ∈ l → (l.map f).Nodup →
      (l.map f).indexOf (f x) = l.indexOf x := by
  intro l
  induction l with
  | nil => intro x hx; simp at hx
  | cons y t IH =>
    intro x hx hn
    rw [List.map_cons] at hn
    rw [List.nodup_cons] at hn
    rw [List.map_cons, List.indexOf_cons, List.indexOf_cons]
    cases hyx : y == x with
    | true =>
      have : y = x := eq_of_beq hyx
      subst this
      simp
    | false =>
      have hne : y ≠ x := fun h => by rw [h] at hyx; simp at hyx
      have hxt : x ∈ t := by
        rcases List.mem_cons.1 hx with h | h
        · exact absurd h.symm hne
        · exact h
      have hfne : (f y == f x) = false := by
        cases hf : f y == f x with
        | true =>
          have : f y = f x := eq_of_beq hf
          exact absurd (this ▸ List.mem_map_of_mem f hxt) hn.1
        | false => rfl
      rw [hfne]
      simp only [cond_false]
      rw [IH x hxt hn.2]

/-- The node identifiers of the mapped skeleton are the mapped node paths. -/
theorem nodeNames_map (addr : List Nat → String) :
    ∀ (sp : List StmtP),
      nodeNames (sp.map (applyAddr addr)) = (nodePathsP sp).map addr := by
  intro sp
  induction sp with
  | nil => rfl
  | cons st rest IH =>
    cases st with
    | node p c =>
      simp only [nodeNames, nodePathsP, List.map_cons, applyAddr, List.filterMap_cons] at IH ⊢
      rw [IH]
    | edge t h lbl =>
      simp only [nodeNames, nodePathsP, List.map_cons, applyAddr, List.filterMap_cons] at IH ⊢
      exact IH

/-- A node statement's path is among the skeleton's node paths. -/
theorem mem_nodePathsP {sp : List StmtP} {p : List Nat} {c : NodeContent}
    (h : StmtP.node p c ∈ sp) : p ∈ nodePathsP sp := by
  exact List.mem_filterMap.2 ⟨StmtP.node p c, h, rfl⟩

/-- In a closed skeleton, every edge endpoint is a declared node path (or was
already in the ambient seen set). -/
theorem pathsClosed_edge_mem :
    ∀ (sp : List StmtP) (seen : List (List Nat)) (tl hd : List Nat) (lbl : String),
      pathsClosedFrom seen sp = true → StmtP.edge tl hd lbl ∈ sp →
      (tl ∈ seen ∨ tl ∈ nodePathsP sp) ∧ (hd ∈ seen ∨ hd ∈ nodePathsP sp) := by
  intro sp
  induction sp with
  | nil => intro seen tl hd lbl _ hmem; simp at hmem
  | cons st rest IH =>
    intro seen tl hd lbl hcl hmem
    cases st with
    | node p c =>
      rw [pathsClosedFrom] at hcl
      rcases List.mem_cons.1 hmem with h | h
      · exact absurd h (by simp)
      · have := IH (p :: seen) tl hd lbl hcl h
        simp only [nodePathsP, List.filterMap_cons] at this ⊢
        rcases this with ⟨h1, h2⟩
        constructor
        · rcases h1 with h1 | h1
          · rcases List.mem_cons.1 h1 with h3 | h3
            · exact Or.inr (by rw [h3]; exact List.mem_cons_self _ _)
            · exact Or.inl h3
          · exact Or.inr (List.mem_cons_of_mem _ h1)
        · rcases h2 with h2 | h2
          · rcases List.mem_cons.1 h2 with h3 | h3
            · exact Or.inr (by rw [h3]; exact List.mem_cons_self _ _)
            · exact Or.inl h3
          · exact Or.inr (List.mem_cons_of_mem _ h2)
    | edge t2 h2 lbl2 =>
      rw [pathsClosedFrom] at hcl
      simp only [Bool.and_eq_true, decide_eq_true_iff] at hcl
      rcases List.mem_cons.1 hmem with h | h
      · rw [StmtP.edge.injEq] at h
        refine ⟨Or.inl ?_, Or.inl ?_⟩
        · rw [h.1]; exact hcl.1.1
        · rw [h.2.1]; exact hcl.1.2
      · have := IH seen tl hd lbl hcl.2 h
        simp only [nodePathsP, List.filterMap_cons] at this ⊢
        exact this

/-- Canonicalizing the mapped skeleton is independent of the address
assignment, as long as the minted identifiers are pairwise distinct. -/
theorem canonicalize_map (addr : List Nat → String) (sp : List StmtP)
    (hclosed : pathsClosedFrom [] sp = true)
    (hnodup : ((nodePathsP sp).map addr).Nodup) :
    (sp.map (applyAddr addr)).map (canonicalST (nodeNames (sp.map (applyAddr addr)))) =
      sp.map (canonicalSTP (nodePathsP sp)) := by
  rw [nodeNames_map, List.map_map]
  refine List.map_congr_left ?_
  intro st hst
  cases st with
  | node p c =>
    have hp : p ∈ nodePathsP sp := mem_nodePathsP hst
    simp only [Function.comp, applyAddr, canonicalST, canonicalSTP]
    rw [indexOf_map_nodup addr (nodePathsP sp) p hp hnodup]
  | edge t h lbl =>
    have := pathsClosed_edge_mem sp [] t h lbl hclosed hst
    simp only [List.not_mem_nil, false_or] at this
    simp only [Function.comp, applyAddr, canonicalST, canonicalSTP]
    rw [indexOf_map_nodup addr (nodePathsP sp) t this.1 hnodup,
        indexOf_map_nodup addr (nodePathsP sp) h this.2 hnodup]

/-- The label/shape/style content of the node statements does not depend on
the address assignment. -/
theorem nodeContent_map (addr : List Nat → String) :
    ∀ (sp : List StmtP),
      (Digraph.nodeStmts ⟨drawAttrs, sp.map (applyAddr addr)⟩).map
          (fun n => (n.label, n.shape, n.style, n.fillcolor, n.fontname, n.fontsize)) =
        sp.filterMap (fun st => match st with
          | StmtP.node _ c => some (c.label, c.shape, c.style, c.fillcolor, c.fontname, c.fontsize)
          | StmtP.edge _ _ _ => none) := by
  intro sp
  induction sp with
  | nil => rfl
  | cons st rest IH =>
    cases st with
    | node p c =>
      simp only [Digraph.nodeStmts, List.map_cons, applyAddr, List.filterMap_cons] at IH ⊢
      rw [IH]
    | edge t h lbl =>
      simp only [Digraph.nodeStmts, List.map_cons, applyAddr, List.filterMap_cons] at IH ⊢
      exact IH

/-- The labels of the edge statements do not depend on the address
assignment. -/
theorem edgeLabels_map (addr : List Nat → String) :
    ∀ (sp : List StmtP),
      (Digraph.edgeStmts ⟨drawAttrs, sp.map (applyAddr addr)⟩).map EdgeStmt.label =
        sp.filterMap (fun st => match st with
          | StmtP.node _ _ => none
          | StmtP.edge _ _ lbl => some lbl) := by
  intro sp
  induction sp with
  | nil => rfl
  | cons st rest IH =>
    cases st with
    | node p c =>
      simp only [Digraph.edgeStmts, List.map_cons, applyAddr, List.filterMap_cons] at IH ⊢
      exact IH
    | edge t h lbl =>
      simp only [Digraph.edgeStmts, List.map_cons, applyAddr, List.filterMap_cons] at IH ⊢
      rw [IH]

/-- Folding the action loop over an error result is the error itself. -/
theorem foldl_actions_error (n : Nat) (nid : String) :
    ∀ (l : List ActionR) (e : RenderErr),
      l.foldl (fun acc a => acc.bind (fun sd =>
          add_nodes_edges_ref n a.next_node (some nid)
            (actionLabel a.name a.probability) sd.1 sd.2))
        (Except.error e) = Except.error e := by
  intro l
  induction l with
  | nil => intro e; rfl
  | cons a rest IHl => intro e; exact IHl e

/-- Rendering the cyclic store never returns: the traversal re-enters the
root through the self-referencing action until the recursion budget is
exhausted, for every budget.  No `MalformedReference` (or any other) result
is ever produced. -/
theorem cyc_add_nodes_edges_ref_diverges :
    ∀ (fuel : Nat) (parent_id : Option String) (el : String) (dot : Digraph),
      add_nodes_edges_ref fuel 0 parent_id el cycStore dot =
        Except.error RenderErr.recursionExhausted := by
  intro fuel
  induction fuel with
  | zero => intro par el dot; rfl
  | succ n IH =>
    intro par el dot
    cases par with
    | none => exact IH _ _ _
    | some pid => exact IH _ _ _

/-- Draw-level version of the divergence. -/
theorem cyc_draw_ref_diverges (fuel : Nat) :
    draw_game_tree_ref fuel (some 0) cycStore =
      Except.error RenderErr.recursionExhausted := by
  exact cyc_add_nodes_edges_ref_diverges fuel none "" _

/-- The action loop preserves the store component, given that each child
render does. -/
theorem foldl_preserves_store (n : Nat)
    (IH : ∀ (ref : Nat) (par : Option String) (el : String) (st2 : Store) (dot : Digraph),
      (add_nodes_edges_ref n ref par el st2 dot).map Prod.fst =
        (add_nodes_edges_ref n ref par el st2 dot).map (fun _ => st2)) :
    ∀ (l : List ActionR) (nid : String) (st : Store) (dot2 : Digraph),
      (l.foldl (fun acc a => acc.bind (fun sd =>
          add_nodes_edges_ref n a.next_node (some nid)
            (actionLabel a.name a.probability) sd.1 sd.2))
        (Except.ok (st, dot2))).map Prod.fst =
      (l.foldl (fun acc a => acc.bind (fun sd =>
          add_nodes_edges_ref n a.next_node (some nid)
            (actionLabel a.name a.probability) sd.1 sd.2))
        (Except.ok (st, dot2))).map (fun _ => st) := by
  intro l
  induction l with
  | nil => intro nid st dot2; rfl
  | cons a rest IHl =>
    intro nid st dot2
    rw [List.foldl_cons]
    have hstep : (Except.ok (st, dot2) : Except RenderErr (Store × Digraph)).bind
        (fun sd => add_nodes_edges_ref n a.next_node (some nid)
          (actionLabel a.name a.probability) sd.1 sd.2) =
        add_nodes_edges_ref n a.next_node (some nid)
          (actionLabel a.name a.probability) st dot2 := rfl
    rw [hstep]
    cases hN : add_nodes_edges_ref n a.next_node (some nid)
        (actionLabel a.name a.probability) st dot2 with
    | error e => rw [foldl_actions_error]; rfl
    | ok sd =>
      have hfst := IH a.next_node (some nid) (actionLabel a.name a.probability) st dot2
      rw [hN] at hfst
      simp only [Except.map] at hfst
      rw [Except.ok.injEq] at hfst
      rcases sd with ⟨sd1, sd2⟩
      simp only at hfst
      subst hfst
      exact IHl nid sd1 sd2

/-- The store component of any successful render is the input store: the
traversal reads the heap and never writes it. -/
theorem add_nodes_edges_ref_preserves_store :
    ∀ (fuel : Nat) (ref : Nat) (parent_id : Option String) (el : String)
      (st : Store) (dot : Digraph),
      (add_nodes_edges_ref fuel ref parent_id el st dot).map Prod.fst =
        (add_nodes_edges_ref fuel ref parent_id el st dot).map (fun _ => st) := by
  intro fuel
  induction fuel with
  | zero => intro ref par el st dot; rfl
  | succ n IH =>
    intro ref par el st dot
    rw [add_nodes_edges_ref]
    split
    · rfl
    · dsimp only
      split
      · exact foldl_preserves_store n IH _ _ _ _
      · rfl

/-- Draw-level version of store preservation. -/
theorem draw_ref_preserves_store (fuel : Nat) (root_ref : Option Nat) (st : Store) :
    (draw_game_tree_ref fuel root_ref st).map Prod.fst =
      (draw_game_tree_ref fuel root_ref st).map (fun _ => st) := by
  cases root_ref with
  | none => rfl
  | some r => exact add_nodes_edges_ref_preserves_store fuel r none "" st _

/-- The edge linking a rendered subtree to its parent is in its skeleton. -/
theorem bodyP_root_edge_mem (node : GameNode) (cpath pp : List Nat) (el : String) :
    StmtP.edge pp cpath (wrap_text el 15) ∈ bodyP node cpath (some pp) el := by
  cases node with
  | mk i cpn it acts pay =>
    rw [bodyP.eq_def]
    simp [List.mem_append]

/-- Completeness of edge emission: for every descendant `s` (at path `p`
under the rendered subtree) and every action of `s` at position `j`, the
skeleton contains the edge from `s` to that child, with the wrapped action
label. -/
theorem bodyP_action_edge_mem :
    ∀ (p : List Nat) (t : GameNode) (path : List Nat) (parentP : Option (List Nat))
      (el : String) (s : GameNode) (ls : List Action) (j : Nat) (a : Action),
      subtreeAt t p = some s → s.actions = some ls → ls[j]? = some a →
      StmtP.edge (path ++ p) ((path ++ p) ++ [j])
          (wrap_text (actionLabel a.name a.probability) 15) ∈ bodyP t path parentP el := by
  intro p
  induction p with
  | nil =>
    intro t path parentP el s ls j a hs hacts hj
    cases t with
    | mk i cpn it acts pay =>
      rw [subtreeAt, Option.some_inj] at hs
      subst hs
      simp only [GameNode.actions] at hacts
      subst hacts
      have hchild := bodyP_root_edge_mem a.next_node (path ++ [0 + j]) path
        (actionLabel a.name a.probability)
      have hmem := actsP_mem_of_child _ ls 0 path j a hj hchild
      simp only [Nat.zero_add] at hmem
      simp only [bodyP, List.mem_append, List.append_nil]
      exact Or.inr hmem
  | cons j2 p2 IH =>
    intro t path parentP el s ls j a hs hacts hj
    cases t with
    | mk i cpn it acts pay =>
      rw [subtreeAt] at hs
      simp only [GameNode.actions] at hs
      cases acts with
      | none => simp at hs
      | some l =>
        simp only at hs
        cases hl : l[j2]? with
        | none => rw [hl] at hs; simp at hs
        | some a2 =>
          rw [hl] at hs
          simp only at hs
          have hmem := IH a2.next_node (path ++ [j2]) (some path)
            (actionLabel a2.name a2.probability) s ls j a hs hacts hj
          have hmem2 : StmtP.edge (path ++ (j2 :: p2)) ((path ++ (j2 :: p2)) ++ [j])
              (wrap_text (actionLabel a.name a.probability) 15)
              ∈ bodyP a2.next_node (path ++ [0 + j2]) (some path)
                (actionLabel a2.name a2.probability) := by
            have h2 : path ++ (j2 :: p2) = (path ++ [j2]) ++ p2 := by simp
            rw [Nat.zero_add, h2]
            exact hmem
          have := actsP_mem_of_child _ l 0 path j2 a2 hl hmem2
          simp only [bodyP, List.mem_append]
          exact Or.inr this

/-- Key-filtered edges of a rendered subtree, general form: when the key is
not the subtree's own path nor below it, the only possible hit is the edge
to the parent. -/
theorem bodyP_keyEdges_parent :
    ∀ (node : GameNode) (path : List Nat) (parentP : Option (List Nat)) (el : String)
      (key : List Nat), (∀ q, path ++ q ≠ key) →
      keyEdgesP key (bodyP node path parentP el) =
        (match parentP with
         | some pp => if pp = key then [(path, wrap_text el 15)] else []
         | none => []) := by
  have main := add_nodes_edges.induct (fun _ => "")
    (fun node path _ el _ =>
      ∀ parentP key, (∀ q, path ++ q ≠ key) →
        keyEdgesP key (bodyP node path parentP el) =
          (match parentP with
           | some pp => if pp = key then [(path, wrap_text el 15)] else []
           | none => []))
    (fun l i path _ _ =>
      ∀ key, (∀ q, path ++ q ≠ key) → keyEdgesP key (actsP l i path) = [])
    ?_ ?_ ?_ ?_
  · intro node path parentP el key h
    exact main node path none el ⟨[], []⟩ parentP key h
  · intro path parent_id el dot i cpn it pay nid dot1 dot2 l IH parentP key hkey
    have hacts := IH key hkey
    have hpath : path ≠ key := by
      have := hkey []
      simpa using this
    cases parentP with
    | none =>
      show keyEdgesP key
        (StmtP.node path (nodeContentOf cpn it pay) :: actsP l 0 path) = _
      simp only [keyEdgesP, List.filterMap_cons] at hacts ⊢
      simpa using hacts
    | some pp =>
      show keyEdgesP key
        (StmtP.node path (nodeContentOf cpn it pay) ::
          StmtP.edge pp path (wrap_text el 15) :: actsP l 0 path) = _
      simp only [keyEdgesP, List.filterMap_cons] at hacts ⊢
      by_cases hpp : pp = key
      · simp only [hpp, if_pos rfl]
        simpa using hacts
      · simp only [if_neg hpp]
        simpa using hacts
  · intro path parent_id el dot i cpn it pay parentP key hkey
    have hpath : path ≠ key := by
      have := hkey []
      simpa using this
    cases parentP with
    | none =>
      show keyEdgesP key [StmtP.node path (nodeContentOf cpn it pay)] = _
      simp [keyEdgesP]
    | some pp =>
      show keyEdgesP key
        [StmtP.node path (nodeContentOf cpn it pay),
         StmtP.edge pp path (wrap_text el 15)] = _
      by_cases hpp : pp = key
      · simp [keyEdgesP, hpp]
      · simp [keyEdgesP, hpp]
  · intro i path node_id dot key hkey
    rfl
  · intro i path node_id dot nm ds pr nn rest IH1 IH2 key hkey
    show keyEdgesP key
      (bodyP nn (path ++ [i]) (some path) (actionLabel nm pr) ++
        actsP rest (i + 1) path) = []
    have hchildkey : ∀ q, (path ++ [i]) ++ q ≠ key := by
      intro q h
      exact hkey ([i] ++ q) (by rw [← List.append_assoc]; exact h)
    have h1 := IH1 (some path) key hchildkey
    have hpath : path ≠ key := by
      have := hkey []
      simpa using this
    rw [keyEdgesP, List.filterMap_append]
    rw [keyEdgesP] at h1
    rw [h1]
    have h2 := IH2 key hkey
    rw [keyEdgesP] at h2
    rw [h2]
    simp [hpath]

/-- No key-filtered edges arise from the tail of the action loop when the
key is neither the node's own path nor below any child position the loop
can still reach. -/
theorem actsP_keyEdges_vanish :
    ∀ (l : List Action) (i : Nat) (path : List Nat) (key : List Nat),
      path ≠ key → (∀ m q, i ≤ m → (path ++ [m]) ++ q ≠ key) →
      keyEdgesP key (actsP l i path) = [] := by
  intro l
  induction l with
  | nil => intro i path key _ _; rfl
  | cons hd rest IH =>
    intro i path key hpath hbelow
    cases hd with
    | mk nm ds pr nn =>
      show keyEdgesP key
        (bodyP nn (path ++ [i]) (some path) (actionLabel nm pr) ++
          actsP rest (i + 1) path) = []
      rw [keyEdgesP, List.filterMap_append]
      have h1 := bodyP_keyEdges_parent nn (path ++ [i]) (some path) (actionLabel nm pr)
        key (fun q => hbelow i q (Nat.le_refl i))
      rw [keyEdgesP] at h1
      rw [h1]
      have h2 := IH (i + 1) path key hpath
        (fun m q hm => hbelow m q (Nat.le_of_succ_le hm))
      rw [keyEdgesP] at h2
      rw [h2]
      simp [hpath]

/-- The edges whose tail is the node's own path, collected across the action
loop, are exactly one edge per action, in the loop's order: head is the
child position, label is the wrapped action label. -/
theorem actsP_keyEdges_self :
    ∀ (l : List Action) (i : Nat) (path : List Nat),
      keyEdgesP path (actsP l i path) = childEdgeSpecs path l i := by
  intro l
  induction l with
  | nil => intro i path; rfl
  | cons hd rest IH =>
    intro i path
    cases hd with
    | mk nm ds pr nn =>
      show keyEdgesP path
        (bodyP nn (path ++ [i]) (some path) (actionLabel nm pr) ++
          actsP rest (i + 1) path) =
        (path ++ [i], wrap_text (actionLabel nm pr) 15) :: childEdgeSpecs path rest (i + 1)
      rw [keyEdgesP, List.filterMap_append]
      have hne : ∀ q, (path ++ [i]) ++ q ≠ path := by
        intro q h
        have := congrArg List.length h
        simp at this
      have h1 := bodyP_keyEdges_parent nn (path ++ [i]) (some path) (actionLabel nm pr)
        path hne
      rw [keyEdgesP] at h1
      rw [h1]
      have h2 := IH (i + 1) path
      rw [keyEdgesP] at h2
      rw [h2]
      simp

/-- Filtering by a key at or below the `jj`-th child reduces the whole
action loop to that child's rendering alone. -/
theorem actsP_keyEdges_target :
    ∀ (l : List Action) (i : Nat) (path : List Nat) (jj : Nat) (a : Action) (p2 : List Nat),
      l[jj]? = some a →
      keyEdgesP ((path ++ [i + jj]) ++ p2) (actsP l i path) =
        keyEdgesP ((path ++ [i + jj]) ++ p2)
          (bodyP a.next_node (path ++ [i + jj]) (some path)
            (actionLabel a.name a.probability)) := by
  intro l
  induction l with
  | nil => intro i path jj a p2 hj; simp at hj
  | cons hd rest IH =>
    intro i path jj a p2 hj
    have hpathne : path ≠ (path ++ [i + jj]) ++ p2 := by
      intro h
      have := congrArg List.length h
      simp at this
    cases hd with
    | mk nm ds pr nn =>
      cases jj with
      | zero =>
        rw [List.getElem?_cons_zero, Option.some_inj] at hj
        subst hj
        show keyEdgesP ((path ++ [i + 0]) ++ p2)
          (bodyP nn (path ++ [i]) (some path) (actionLabel nm pr) ++
            actsP rest (i + 1) path) = _
        rw [keyEdgesP, List.filterMap_append]
        have h2 := actsP_keyEdges_vanish rest (i + 1) path ((path ++ [i + 0]) ++ p2)
          hpathne ?_
        · rw [keyEdgesP] at h2
          rw [h2]
          simp only [Nat.add_zero, Action.next_node, Action.name, Action.probability,
            List.append_nil]
          rw [keyEdgesP]
        · intro m q hm h
          rw [Nat.add_zero] at h
          rw [List.append_assoc, List.append_assoc] at h
          have := List.append_cancel_left h
          rw [List.cons_append, List.cons_append, List.cons.injEq] at this
          omega
      | succ j3 =>
        rw [List.getElem?_cons_succ] at hj
        show keyEdgesP ((path ++ [i + (j3 + 1)]) ++ p2)
          (bodyP nn (path ++ [i]) (some path) (actionLabel nm pr) ++
            actsP rest (i + 1) path) = _
        rw [keyEdgesP, List.filterMap_append]
        have h1 := bodyP_keyEdges_parent nn (path ++ [i]) (some path) (actionLabel nm pr)
          ((path ++ [i + (j3 + 1)]) ++ p2) ?_
        · rw [keyEdgesP] at h1
          rw [h1]
          have h2 := IH (i + 1) path j3 a p2 hj
          rw [show (i + 1) + j3 = i + (j3 + 1) from by omega] at h2
          rw [keyEdgesP] at h2
          rw [h2]
          simp [hpathne, keyEdgesP]
        · intro q h
          rw [List.append_assoc, List.append_assoc] at h
          have := List.append_cancel_left h
          rw [List.cons_append, List.cons_append, List.cons.injEq] at this
          omega

/-- The key-filtered edges of a rendered subtree at the path of a descendant
node are exactly that node's per-action child edges, in action order. -/
theorem bodyP_keyEdges_children :
    ∀ (p : List Nat) (t : GameNode) (path : List Nat) (parentP : Option (List Nat))
      (el : String) (s : GameNode) (ls : List Action),
      subtreeAt t p = some s → s.actions = some ls →
      (∀ pp, parentP = some pp → pp.length < path.length) →
      keyEdgesP (path ++ p) (bodyP t path parentP el) =
        childEdgeSpecs (path ++ p) ls 0 := by
  intro p
  induction p with
  | nil =>
    intro t path parentP el s ls hs hacts hpar
    cases t with
    | mk i cpn it acts pay =>
      rw [subtreeAt, Option.some_inj] at hs
      subst hs
      simp only [GameNode.actions] at hacts
      subst hacts
      rw [List.append_nil]
      cases parentP with
      | none =>
        show keyEdgesP path
          (StmtP.node path (nodeContentOf cpn it pay) :: actsP ls 0 path) =
          childEdgeSpecs path ls 0
        rw [keyEdgesP, List.filterMap_cons]
        have h := actsP_keyEdges_self ls 0 path
        rw [keyEdgesP] at h
        simpa using h
      | some pp =>
        have hppne : pp ≠ path := by
          intro h
          have := hpar pp rfl
          rw [h] at this
          omega
        show keyEdgesP path
          (StmtP.node path (nodeContentOf cpn it pay) ::
            StmtP.edge pp path (wrap_text el 15) :: actsP ls 0 path) =
          childEdgeSpecs path ls 0
        rw [keyEdgesP, List.filterMap_cons, List.filterMap_cons]
        have h := actsP_keyEdges_self ls 0 path
        rw [keyEdgesP] at h
        simpa [hppne] using h
  | cons j p2 IH =>
    intro t path parentP el s ls hs hacts hpar
    cases t with
    | mk i cpn it acts pay =>
      rw [subtreeAt] at hs
      simp only [GameNode.actions] at hs
      cases acts with
      | none => simp at hs
      | some l =>
        simp only at hs
        cases hl : l[j]? with
        | none => rw [hl] at hs; simp at hs
        | some a =>
          rw [hl] at hs
          simp only at hs
          have hkey : path ++ (j :: p2) = (path ++ [0 + j]) ++ p2 := by
            simp
          rw [hkey]
          have htarget := actsP_keyEdges_target l 0 path j a p2 hl
          have hchild := IH a.next_node (path ++ [0 + j]) (some path)
            (actionLabel a.name a.probability) s ls hs hacts
            (by intro pp h; rw [Option.some_inj] at h; rw [← h]; simp)
          cases parentP with
          | none =>
            show keyEdgesP ((path ++ [0 + j]) ++ p2)
              (StmtP.node path (nodeContentOf cpn it pay) :: actsP l 0 path) = _
            rw [keyEdgesP, List.filterMap_cons]
            rw [keyEdgesP] at htarget
            simp only
            rw [htarget]
            exact hchild
          | some pp =>
            have hppne : pp ≠ (path ++ [0 + j]) ++ p2 := by
              intro h
              have hlen := hpar pp rfl
              have := congrArg List.length h
              simp at this
              omega
            show keyEdgesP ((path ++ [0 + j]) ++ p2)
              (StmtP.node path (nodeContentOf cpn it pay) ::
                StmtP.edge pp path (wrap_text el 15) :: actsP l 0 path) = _
            rw [keyEdgesP, List.filterMap_cons, List.filterMap_cons]
            rw [keyEdgesP] at htarget
            simp only [if_neg hppne]
            rw [htarget]
            exact hchild

/-- Transfer of the key-filtered edge list to string identifiers, given that
no other edge tail collides with the key under the address assignment. -/
theorem keyEdges_map (addr : List Nat → String) (p : List Nat) :
    ∀ (sp : List StmtP),
      (∀ tl hd lbl, StmtP.edge tl hd lbl ∈ sp → addr tl = addr p → tl = p) →
      keyEdges (addr p) (sp.map (applyAddr addr)) =
        (keyEdgesP p sp).map (fun he => (addr he.1, he.2)) := by
  intro sp
  induction sp with
  | nil => intro _; rfl
  | cons st rest IH =>
    intro hinj
    have hrest := IH (fun tl hd lbl hm ha => hinj tl hd lbl (List.mem_cons_of_mem _ hm) ha)
    cases st with
    | node q c =>
      simp only [List.map_cons, applyAddr, keyEdges, keyEdgesP, List.filterMap_cons] at hrest ⊢
      exact hrest
    | edge tl hd lbl =>
      by_cases htl : tl = p
      · subst htl
        simp only [keyEdges, keyEdgesP] at hrest ⊢
        simp [applyAddr, List.filterMap_cons, hrest]
      · have haddr : ¬(addr tl = addr p) :=
          fun h => htl (hinj tl hd lbl (List.mem_cons_self _ _) h)
        simp only [List.map_cons, applyAddr, keyEdges, keyEdgesP, List.filterMap_cons,
          if_neg htl, if_neg haddr] at hrest ⊢
        exact hrest

/-- Completeness of edge emission at the draw level: for every rendered node
and every action of it, at its position `j` in the action sequence, the
output contains the edge from the node's identifier to that child's
identifier, labeled with the wrapped action label. -/
theorem draw_action_edge_mem (t : GameNode) (addr : List Nat → String)
    (p : List Nat) (s : GameNode) (ls : List Action) (j : Nat) (a : Action)
    (hs : subtreeAt t p = some s) (hacts : s.actions = some ls)
    (hj : ls[j]? = some a) :
    EdgeStmt.mk (addr p) (addr (p ++ [j]))
        (wrap_text (actionLabel a.name a.probability) 15) "9"
      ∈ (draw_game_tree addr (some t)).edgeStmts := by
  rw [draw_game_tree_char]
  refine (edgeStmts_of_bodyP addr _ _).2
    ⟨p, p ++ [j], wrap_text (actionLabel a.name a.probability) 15, ?_, rfl⟩
  have := bodyP_action_edge_mem p t [] none "" s ls j a hs hacts hj
  simpa using this

/-- Exactness and order of edge emission at the draw level: filtering the
emitted body by a rendered node's identifier yields exactly one edge per
action of that node, in the action sequence's order, with the child
identifiers and wrapped labels.  Distinctness of the minted identifiers (as
`str(id(·))` on live objects) rules out collisions. -/
theorem draw_keyEdges (t : GameNode) (addr : List Nat → String) (p : List Nat)
    (s : GameNode) (ls : List Action)
    (hnodup : (nodeNames (draw_game_tree addr (some t)).body).Nodup)
    (hs : subtreeAt t p = some s) (hacts : s.actions = some ls) :
    keyEdges (addr p) (draw_game_tree addr (some t)).body =
      (childEdgeSpecs p ls 0).map (fun he => (addr he.1, he.2)) := by
  rw [draw_game_tree_char] at hnodup ⊢
  rw [nodeNames_map] at hnodup
  have hcl := bodyP_closed t [] none "" [] (by simp)
  have hp : p ∈ nodePathsP (bodyP t [] none "") := by
    have hmem := bodyP_node_mem p t [] none "" s hs
    rw [List.nil_append] at hmem
    exact mem_nodePathsP hmem
  have hinj : ∀ tl hd lbl, StmtP.edge tl hd lbl ∈ bodyP t [] none "" →
      addr tl = addr p → tl = p := by
    intro tl hd lbl hm ha
    have hends := pathsClosed_edge_mem _ [] tl hd lbl hcl hm
    simp only [List.not_mem_nil, false_or] at hends
    exact List.inj_on_of_nodup_map hnodup hends.1 hp ha
  have htr := keyEdges_map addr p (bodyP t [] none "") hinj
  have hmain := bodyP_keyEdges_children p t [] none "" s ls hs hacts
    (by intro pp h; simp at h)
  rw [List.nil_append] at hmain
  show keyEdges (addr p) ((bodyP t [] none "").map (applyAddr addr)) =
    (childEdgeSpecs p ls 0).map (fun he => (addr he.1, he.2))
  rw [htr, hmain]

/-! ### Small helper facts used by claim theorems -/

/-- The validator returns its argument unchanged on every input. -/
theorem validate_choices_ok (v : Option (List Action)) :
    validate_choices v = Except.ok v := by
  match v with
  | none => rfl
  | some [] => rfl
  | some (a :: rest) => simp [validate_choices]

/-- A present nonzero probability produces the suffix. -/
theorem actionLabel_truthy (nm : String) (q : Rat) (hq : q ≠ 0) :
    actionLabel nm (some q) = nm ++ "\n(p=" ++ pyFloatRepr q ++ ")" := by
  simp [actionLabel, hq, String.append_assoc]

/-- An absent or zero probability produces no suffix (Python float
truthiness). -/
theorem actionLabel_falsy (nm : String) (pr : Option Rat)
    (h : pr = none ∨ pr = some 0) : actionLabel nm pr = nm := by
  rcases h with h | h <;> subst h <;> simp [actionLabel]

/-! ### The claims -/

/-- Claim C1 (corrected), counterexample to the claim as stated: on the tree
whose root's single action's `next_node` refers back to the root, the render
call bottoms out in the recursion budget (Python's `RecursionError`) — it
does not fail with `MalformedReference`; no code path produces that error. -/
theorem claim1_counterexample :
    draw_game_tree_ref 6 (some 0) cycStore = Except.error RenderErr.recursionExhausted ∧
    RenderErr.recursionExhausted ≠ RenderErr.MalformedReference :=
  ⟨by decide, by decide⟩

/-- Claim C1 (corrected), amended: when an action's `next_node` refers back
to the root, the traversal re-enters the root forever: for every recursion
budget the render call (whole-call and inner) exhausts the budget, so the
recursion is unbounded and no `MalformedReference` error is raised — no
cycle detection exists in the code.  (There is no standalone `validate`
operation in the code at all; the only validator, `validate_choices`, never
traverses `next_node`.) -/
theorem claim1_cycle_unbounded_recursion :
    (∀ (fuel : Nat) (parent_id : Option String) (el : String) (dot : Digraph),
      add_nodes_edges_ref fuel 0 parent_id el cycStore dot =
        Except.error RenderErr.recursionExhausted) ∧
    (∀ fuel : Nat, draw_game_tree_ref fuel (some 0) cycStore =
      Except.error RenderErr.recursionExhausted) :=
  ⟨cyc_add_nodes_edges_ref_diverges, cyc_draw_ref_diverges⟩

/-- Claim C2 (corrected), counterexample to the claim as stated: called with
an absent root, `draw_game_tree` does not fail — it silently returns the
empty graph description (no node statements, no edge statements, empty
body), exactly what the claim says must not happen. -/
theorem claim2_counterexample :
    (draw_game_tree pathStr none).nodeStmts = [] ∧
    (draw_game_tree pathStr none).edgeStmts = [] ∧
    (draw_game_tree pathStr none).body = [] :=
  ⟨rfl, rfl, rfl⟩

/-- Claim C2 (corrected), amended: called with an absent root,
`draw_game_tree` raises nothing and returns the attribute-only empty graph
description (the `if root_node:` guard skips the traversal). -/
theorem claim2_missing_root_empty_graph :
    ∀ (addr : List Nat → String), draw_game_tree addr none = ⟨drawAttrs, []⟩ := by
  intro addr; rfl

/-- Claim C3 (corrected), counterexample to the claim as stated: an action
carrying the present probability value `0.0` gets no `(p=...)` suffix — its
edge label is the bare action name, because `if action.probability:` is
Python float truthiness and `0.0` is falsy. -/
theorem claim3_counterexample :
    (draw_game_tree pathStr (some zeroProbTree)).edgeStmts.map EdgeStmt.label = ["A"] ∧
    "A" ≠ "A" ++ "\n(p=" ++ pyFloatRepr 0 ++ ")" :=
  ⟨by decide, by decide⟩

/-- Claim C3 (corrected), amended: for every rendered node and every action
of that node in the given sequence order, `render` emits a directed edge
from the node's identifier to that child's identifier — exactly one edge per
action, in order (filtering the body by the node's identifier yields the
per-action list), and conversely every emitted edge arises from an action
this way.  The edge label is the action's name with the `"\n(p=<value>)"`
suffix appended exactly when the probability is present and nonzero (Python
float truthiness: a present `0.0` is falsy), the whole label wrapped to
width 15. -/
theorem claim3_edge_labels (t : GameNode) (addr : List Nat → String) :
    (∀ (p : List Nat) (s : GameNode) (ls : List Action) (j : Nat) (a : Action),
      subtreeAt t p = some s → s.actions = some ls → ls[j]? = some a →
      EdgeStmt.mk (addr p) (addr (p ++ [j]))
          (wrap_text (actionLabel a.name a.probability) 15) "9"
        ∈ (draw_game_tree addr (some t)).edgeStmts) ∧
    (∀ (p : List Nat) (s : GameNode) (ls : List Action),
      (nodeNames (draw_game_tree addr (some t)).body).Nodup →
      subtreeAt t p = some s → s.actions = some ls →
      keyEdges (addr p) (draw_game_tree addr (some t)).body =
        (childEdgeSpecs p ls 0).map (fun he => (addr he.1, he.2))) ∧
    (∀ e : EdgeStmt, e ∈ (draw_game_tree addr (some t)).edgeStmts →
      ∃ p s ls j a, subtreeAt t p = some s ∧ s.actions = some ls ∧ ls[j]? = some a ∧
        e.tail_name = addr p ∧ e.head_name = addr (p ++ [j]) ∧
        e.label = wrap_text (actionLabel a.name a.probability) 15) ∧
    (∀ (nm : String) (q : Rat), q ≠ 0 →
      actionLabel nm (some q) = nm ++ "\n(p=" ++ pyFloatRepr q ++ ")") ∧
    (∀ (nm : String) (pr : Option Rat), pr = none ∨ pr = some 0 →
      actionLabel nm pr = nm) := by
  refine ⟨?_, ?_, ?_, ?_, ?_⟩
  · intro p s ls j a hs hacts hj
    exact draw_action_edge_mem t addr p s ls j a hs hacts hj
  · intro p s ls hnodup hs hacts
    exact draw_keyEdges t addr p s ls hnodup hs hacts
  · intro e he
    exact draw_edge_char addr t e he
  · intro nm q hq
    exact actionLabel_truthy nm q hq
  · intro nm pr h
    exact actionLabel_falsy nm pr h

/-- Claim C3 witness: on the 1-level example tree, the root's first action
"Raise Price" has its edge emitted; the root's identifier-filtered edge
list is exactly the two per-action entries in order; the concrete first edge
is characterized; and the suffix conditions are exercised at a nonzero and
at an absent probability. -/
theorem claim3_witness :
    (EdgeStmt.mk (pathStr []) (pathStr [0])
        (wrap_text (actionLabel "Raise Price" none) 15) "9"
      ∈ (draw_game_tree pathStr (some companyTree)).edgeStmts) ∧
    keyEdges (pathStr []) (draw_game_tree pathStr (some companyTree)).body =
      (childEdgeSpecs []
        [Action.mk "Raise Price" "raise" none raiseLeaf,
         Action.mk "Lower Price" "lower" none lowerLeaf] 0).map
        (fun he => (pathStr he.1, he.2)) ∧
    (∃ p s ls j a, subtreeAt companyTree p = some s ∧ s.actions = some ls ∧
      ls[j]? = some a ∧
      (EdgeStmt.mk (pathStr []) (pathStr [0]) "Raise Price" "9").tail_name = pathStr p ∧
      (EdgeStmt.mk (pathStr []) (pathStr [0]) "Raise Price" "9").head_name =
        pathStr (p ++ [j]) ∧
      (EdgeStmt.mk (pathStr []) (pathStr [0]) "Raise Price" "9").label =
        wrap_text (actionLabel a.name a.probability) 15) ∧
    actionLabel "L" (some (1/2 : Rat)) = "L" ++ "\n(p=" ++ pyFloatRepr (1/2 : Rat) ++ ")" ∧
    actionLabel "L" none = "L" :=
  ⟨(claim3_edge_labels companyTree pathStr).1 [] companyTree
      [Action.mk "Raise Price" "raise" none raiseLeaf,
       Action.mk "Lower Price" "lower" none lowerLeaf] 0
      (Action.mk "Raise Price" "raise" none raiseLeaf) rfl rfl rfl,
   (claim3_edge_labels companyTree pathStr).2.1 [] companyTree
      [Action.mk "Raise Price" "raise" none raiseLeaf,
       Action.mk "Lower Price" "lower" none lowerLeaf] (by decide) rfl rfl,
   (claim3_edge_labels companyTree pathStr).2.2.1
      (EdgeStmt.mk (pathStr []) (pathStr [0]) "Raise Price" "9") (by decide),
   (claim3_edge_labels companyTree pathStr).2.2.2.1 "L" (1/2 : Rat) (by norm_num),
   (claim3_edge_labels companyTree pathStr).2.2.2.2 "L" none (Or.inl rfl)⟩

/-- Claim C4 (corrected), counterexample to the claim as stated: on a
malformed node flagged terminal that still carries an action, `render` does
emit an edge originating at that terminal node — the `is_terminal` flag does
not stop the action loop (it only selects the styling). -/
theorem claim4_counterexample :
    subtreeAt terminalWithActionTree [] = some terminalWithActionTree ∧
    terminalWithActionTree.is_terminal = true ∧
    (∃ e ∈ (draw_game_tree pathStr (some terminalWithActionTree)).edgeStmts,
      e.tail_name = pathStr []) :=
  ⟨rfl, rfl, by decide⟩

/-- Claim C4 (corrected), amended: every edge `render` emits originates at a
node whose action sequence is present and non-empty — so nodes without
(truthy) actions, terminal or not, are childless in the output and rendered
without crashing, but the terminal flag itself does not prevent outgoing
edges. -/
theorem claim4_edges_require_actions (t : GameNode) (addr : List Nat → String)
    (e : EdgeStmt) (he : e ∈ (draw_game_tree addr (some t)).edgeStmts) :
    ∃ p s a rest, subtreeAt t p = some s ∧ s.actions = some (a :: rest) ∧
      e.tail_name = addr p := by
  rcases draw_edge_char addr t e he with ⟨p, s, ls, j, a, hsub, hacts, hj, htl, _, _⟩
  cases ls with
  | nil => simp at hj
  | cons a0 rest => exact ⟨p, s, a0, rest, hsub, hacts, htl⟩

/-- Claim C4 witness: the first edge of the 1-level example tree originates
at a node with a non-empty action list. -/
theorem claim4_witness :
    ∃ p s a rest, subtreeAt companyTree p = some s ∧ s.actions = some (a :: rest) ∧
      (EdgeStmt.mk (pathStr []) (pathStr [0]) "Raise Price" "9").tail_name = pathStr p :=
  claim4_edges_require_actions companyTree pathStr
    (EdgeStmt.mk (pathStr []) (pathStr [0]) "Raise Price" "9") (by decide)

/-- Claim C5 (confirmed): rendering the specification's 1-level tree — root
player "Company A" with actions "Raise Price" and "Lower Price" into
terminal payoff nodes — yields exactly 3 node statements and 2 edge
statements, whose labels are exactly the two action names with no
probability suffix, for every address assignment. -/
theorem claim5_company_tree_render :
    ∀ (addr : List Nat → String),
      (draw_game_tree addr (some companyTree)).nodeStmts.length = 3 ∧
      (draw_game_tree addr (some companyTree)).edgeStmts.length = 2 ∧
      (draw_game_tree addr (some companyTree)).edgeStmts.map EdgeStmt.label =
        ["Raise Price", "Lower Price"] := by
  intro addr
  have hsp : bodyP companyTree [] none "" =
      [StmtP.node [] (nodeContentOf (some "Company A") false none),
       StmtP.node [0] (nodeContentOf none true
         (some ⟨"A raises, B keeps prices", [("A", 10), ("B", -5)]⟩)),
       StmtP.edge [] [0] "Raise Price",
       StmtP.node [1] (nodeContentOf none true
         (some ⟨"A lowers, B keeps prices", [("A", -5), ("B", 10)]⟩)),
       StmtP.edge [] [1] "Lower Price"] := by decide
  rw [draw_game_tree_char, hsp]
  refine ⟨?_, ?_, ?_⟩ <;>
    simp [Digraph.nodeStmts, Digraph.edgeStmts, applyAddr, List.filterMap_cons]

/-- Claim C6 (confirmed): the traversal substitutes defined fallbacks for
missing optional fields and still produces the graph description — a
non-terminal node with an absent player name is labeled with the literal
"Unknown" fallback (plus the fixed moves marker), and a terminal node with a
missing payoff gets the Outcome/Payoffs label with both sections empty.
(The Lean translation is total, so no exception is possible at all.) -/
theorem claim6_fallback_labels (t : GameNode) (addr : List Nat → String)
    (p : List Nat) (s : GameNode) (hs : subtreeAt t p = some s) :
    (s.is_terminal = false → s.current_player_name = none →
      ∃ ns ∈ (draw_game_tree addr (some t)).nodeStmts,
        ns.name = addr p ∧ ns.label = "Unknown\n(Moves)") ∧
    (s.is_terminal = true → s.payoff = none →
      ∃ ns ∈ (draw_game_tree addr (some t)).nodeStmts,
        ns.name = addr p ∧ ns.label = "Outcome:\n\n\nPayoffs:\n") := by
  have hmem := bodyP_node_mem p t [] none "" s hs
  rw [List.nil_append] at hmem
  constructor
  · intro hterm hname
    rw [draw_game_tree_char]
    refine ⟨_, (nodeStmts_of_bodyP addr _ _).2 ⟨p, contentOfN s, hmem, rfl⟩, rfl, ?_⟩
    have : (contentOfN s).label = "Unknown\n(Moves)" := by
      simp only [contentOfN, hname, hterm]
      simp only [nodeContentOf, pyOrStr, Bool.false_eq_true, if_false]
      decide
    exact this
  · intro hterm hpay
    rw [draw_game_tree_char]
    refine ⟨_, (nodeStmts_of_bodyP addr _ _).2 ⟨p, contentOfN s, hmem, rfl⟩, rfl, ?_⟩
    have : (contentOfN s).label = "Outcome:\n\n\nPayoffs:\n" := by
      simp only [contentOfN, hpay, hterm]
      simp only [nodeContentOf, if_true]
      decide
    exact this

/-- Claim C6 witness: an internal node with no player name and no actions,
and a terminal node with no payoff. -/
theorem claim6_witness :
    (∃ ns ∈ (draw_game_tree pathStr (some unknownChildless)).nodeStmts,
      ns.name = pathStr [] ∧ ns.label = "Unknown\n(Moves)") ∧
    (∃ ns ∈ (draw_game_tree pathStr (some terminalNoPayoff)).nodeStmts,
      ns.name = pathStr [] ∧ ns.label = "Outcome:\n\n\nPayoffs:\n") :=
  ⟨(claim6_fallback_labels unknownChildless pathStr [] unknownChildless rfl).1 rfl rfl,
   (claim6_fallback_labels terminalNoPayoff pathStr [] terminalNoPayoff rfl).2 rfl rfl⟩

/-- Claim C7 (confirmed): rendering the same tree twice — with whatever
identifier scheme each call's object identities mint, as long as identifiers
are pairwise distinct within a call — produces identical label/shape/style
content for nodes, identical label content for edges, and identifier
structures equal up to the canonical (first-occurrence-index) renaming,
i.e. isomorphic relational structure. -/
theorem claim7_render_deterministic (t : GameNode) (addr1 addr2 : List Nat → String)
    (h1 : (nodeNames (draw_game_tree addr1 (some t)).body).Nodup)
    (h2 : (nodeNames (draw_game_tree addr2 (some t)).body).Nodup) :
    canonicalize (draw_game_tree addr1 (some t)) =
      canonicalize (draw_game_tree addr2 (some t)) ∧
    (draw_game_tree addr1 (some t)).nodeStmts.map
        (fun n => (n.label, n.shape, n.style, n.fillcolor, n.fontname, n.fontsize)) =
      (draw_game_tree addr2 (some t)).nodeStmts.map
        (fun n => (n.label, n.shape, n.style, n.fillcolor, n.fontname, n.fontsize)) ∧
    (draw_game_tree addr1 (some t)).edgeStmts.map EdgeStmt.label =
      (draw_game_tree addr2 (some t)).edgeStmts.map EdgeStmt.label := by
  have hc1 := draw_game_tree_char addr1 t
  have hc2 := draw_game_tree_char addr2 t
  rw [hc1, nodeNames_map] at h1
  rw [hc2, nodeNames_map] at h2
  have hcl := bodyP_closed t [] none "" [] (by simp)
  refine ⟨?_, ?_, ?_⟩
  · rw [hc1, hc2]
    simp only [canonicalize]
    rw [canonicalize_map addr1 _ hcl h1, canonicalize_map addr2 _ hcl h2]
  · rw [hc1, hc2, nodeContent_map, nodeContent_map]
  · rw [hc1, hc2, edgeLabels_map, edgeLabels_map]

/-- Claim C7 witness: two distinct injective address assignments on the
1-level example tree. -/
theorem claim7_witness :
    canonicalize (draw_game_tree pathStr (some companyTree)) =
      canonicalize (draw_game_tree pathStr2 (some companyTree)) ∧
    (draw_game_tree pathStr (some companyTree)).nodeStmts.map
        (fun n => (n.label, n.shape, n.style, n.fillcolor, n.fontname, n.fontsize)) =
      (draw_game_tree pathStr2 (some companyTree)).nodeStmts.map
        (fun n => (n.label, n.shape, n.style, n.fillcolor, n.fontname, n.fontsize)) ∧
    (draw_game_tree pathStr (some companyTree)).edgeStmts.map EdgeStmt.label =
      (draw_game_tree pathStr2 (some companyTree)).edgeStmts.map EdgeStmt.label :=
  claim7_render_deterministic companyTree pathStr pathStr2 (by decide) (by decide)

/-- Claim C8 (confirmed): the choice-cardinality rule is observed but not
enforced — `validate_choices` returns every action list unchanged (including
a singleton list; the raise in the source is commented out), so constructing
a `GameNode` with fewer than two actions succeeds. -/
theorem claim8_validator_never_rejects :
    (∀ v : Option (List Action), validate_choices v = Except.ok v) ∧
    (∀ a : Action, validate_choices (some [a]) = Except.ok (some [a])) ∧
    (∀ (i : String) (cpn : Option String) (it : Bool) (acts : Option (List Action))
       (pay : Option Payoff),
      GameNode.construct i cpn it acts pay = Except.ok (GameNode.mk i cpn it acts pay)) := by
  refine ⟨validate_choices_ok, fun a => validate_choices_ok (some [a]), ?_⟩
  intro i cpn it acts pay
  rw [GameNode.construct, validate_choices_ok]
  rfl

/-- Claim C9 (confirmed): the traversal never mutates its input — threading
the heap of nodes through the call, a successful render returns the heap
exactly as it received it, at the recursive level and at the whole-call
level. -/
theorem claim9_render_read_only :
    (∀ (fuel ref : Nat) (parent_id : Option String) (el : String)
       (st : Store) (dot : Digraph),
      (add_nodes_edges_ref fuel ref parent_id el st dot).map Prod.fst =
        (add_nodes_edges_ref fuel ref parent_id el st dot).map (fun _ => st)) ∧
    (∀ (fuel : Nat) (root_ref : Option Nat) (st : Store),
      (draw_game_tree_ref fuel root_ref st).map Prod.fst =
        (draw_game_tree_ref fuel root_ref st).map (fun _ => st)) :=
  ⟨fun fuel ref par el st dot => add_nodes_edges_ref_preserves_store fuel ref par el st dot,
   draw_ref_preserves_store⟩

/-- Claim C10 (confirmed): the body `render` produces is closed over edge
endpoints, in emission order — scanning the body left to right, every edge
statement references only identifiers already declared by an earlier node
statement (the parent's node statement precedes the recursion, the child's
node statement precedes the edge into it); in particular every edge endpoint
is in the emitted node set. -/
theorem claim10_body_closed (t : GameNode) (addr : List Nat → String) :
    edgesClosedFrom [] (draw_game_tree addr (some t)).body = true := by
  rw [draw_game_tree_char]
  have hcl := bodyP_closed t [] none "" [] (by simp)
  have h := edgesClosedFrom_map addr (bodyP t [] none "") [] hcl
  simpa using h

end GameAgent
